import Mathlib

/-!
Verification of the `bldr` build orchestrator (packages/bldr) against its
natural-language specification.

The development shallowly embeds the relevant parts of the TypeScript source:

* `parseArgs` / `parseLoop`       — utils/args.ts `parseArgs`
* `stripTsExt`, `isTsLike`        — utils/fs.ts
* `removeEmittedForSource`, `toOutPath` — utils/fs.ts `makeDistCleaner`
* `runError`, `runResult`         — utils/process.ts `run`
* `oneShotBuild`                  — core/builder.ts `build`, non-watch branch
* `killProcess`                   — core/builder.ts `shutdown`'s `killProcess`
* `logSink`, `shutdownLogSinks`   — core/builder.ts console override + shutdown
* `watchModeTrace`                — core/builder.ts watch branch control flow
* `shutdownGuardStep`             — core/builder.ts `shutdown` re-entrancy guard
* the operation-queue machine (`queuedOperation`, chokidar `unlink` handler):
  a small-step interpreter of the single-threaded JS microtask semantics of
  `operationQueue` / `queuedOperation` (`Cfg`, `enqueueKey`, `settle`, `stepQ`).

Paths are modelled as lists of segments; machine integers do not occur; the
asynchronous queue is modelled with explicit configurations and an external
schedule choosing which in-flight operation settles next and with what result.
-/

namespace Bldr

/-! ## CLI argument parsing (utils/args.ts) -/

/-- Result of the CLI parser: a normal `Args` value, a usage error
(`-p`/`--project` without a usable path argument), or the help/exit path. -/
inductive ParseOutcome where
  | ok (watch : Bool) (project : Option String)
  | usageError
  | helpExit
deriving DecidableEq

/-- JS `String.prototype.startsWith`. -/
def startsWithJS (s pre : String) : Bool :=
  pre.data.isPrefixOf s.data

/-- The scanning loop of `parseArgs` (utils/args.ts, lines 9-26), with the
accumulated `watch` flag and `project` override.  `-p`/`--project` consumes the
following token when it is truthy and does not start with `-`; any token
matching no branch is skipped. -/
def parseLoop : List String → Bool → Option String → ParseOutcome
  | [], w, pr => .ok w pr
  | a :: rest, w, pr =>
    if a = "-w" ∨ a = "--watch" then parseLoop rest true pr
    else if a = "-p" ∨ a = "--project" then
      match rest with
      | [] => .usageError
      | next :: rest2 =>
        if next ≠ "" ∧ ¬ startsWithJS next "-" then parseLoop rest2 w (some next)
        else .usageError
    else if a = "-h" ∨ a = "--help" then .helpExit
    else parseLoop rest w pr

/-- `parseArgs(argv)` from utils/args.ts: starts from `{ watch: false }`. -/
def parseArgs (argv : List String) : ParseOutcome :=
  parseLoop argv false none

/-- The six recognized flag tokens of the CLI surface. -/
def recognizedFlags : List String :=
  ["-w", "--watch", "-p", "--project", "-h", "--help"]

/-- The sublist of `argv` that the parser does not silently skip: the six
recognized flags, plus the path token consumed by a well-formed
`-p`/`--project`.  This is the spec-side notion of "the remaining recognized
arguments" used to state claim C10. -/
def keepRecognized : List String → List String
  | [] => []
  | a :: rest =>
    if a = "-w" ∨ a = "--watch" then a :: keepRecognized rest
    else if a = "-p" ∨ a = "--project" then
      match rest with
      | [] => [a]
      | next :: rest2 =>
        if next ≠ "" ∧ ¬ startsWithJS next "-" then a :: next :: keepRecognized rest2
        else a :: keepRecognized (next :: rest2)
    else if a = "-h" ∨ a = "--help" then a :: keepRecognized rest
    else keepRecognized rest
termination_by l => l.length
decreasing_by all_goals (simp_wf <;> omega)

/-! ## Path mapper (utils/fs.ts) -/

/-- Absolute paths, modelled as their list of segments below the filesystem
root.  The source manipulates slash-joined strings; extension handling only
ever touches the final segment (the extension patterns contain no separator),
so suffix operations are modelled on the last segment. -/
abbrev FsPath := List String

/-- Lower-cased character data of a string (for the `/i` regex flag). -/
def lowerData (s : String) : List Char :=
  s.data.map Char.toLower

/-- Case-insensitive `endsWith`. -/
def endsWithCI (s suf : String) : Bool :=
  suf.data.isSuffixOf (lowerData s)

/-- Remove the final `n` characters of a string. -/
def dropRightStr (s : String) (n : Nat) : String :=
  ⟨s.data.take (s.data.length - n)⟩

/-- `stripTsExt` (utils/fs.ts lines 97-99): removes a final `.ts`, `.tsx`,
`.mts` or `.cts`, case-insensitively (the `/i` flag of the source regex
`/\.(ts|tsx|mts|cts)$/i`; at most one of the four suffix tests can hold). -/
def stripTsExt (p : String) : String :=
  if endsWithCI p ".tsx" then dropRightStr p 4
  else if endsWithCI p ".mts" then dropRightStr p 4
  else if endsWithCI p ".cts" then dropRightStr p 4
  else if endsWithCI p ".ts" then dropRightStr p 3
  else p

/-- `isTsLike` (utils/fs.ts lines 90-92): does the path end in a recognized
TypeScript-like extension (case-insensitive)? -/
def isTsLike (p : String) : Bool :=
  endsWithCI p ".tsx" || endsWithCI p ".mts" ||
  endsWithCI p ".cts" || endsWithCI p ".ts"

/-- Apply a function to the last segment of a path. -/
def mapLast (f : String → String) : FsPath → FsPath
  | [] => []
  | [x] => [f x]
  | x :: y :: xs => x :: mapLast f (y :: xs)

/-- Length of the common segment prefix of two paths (the core of Node's
`path.relative`). -/
def commonPrefixLen : FsPath → FsPath → Nat
  | a :: as, b :: bs => if a = b then commonPrefixLen as bs + 1 else 0
  | _, _ => 0

/-- Node `path.relative(fromP, toP)` on already-absolute segment paths:
`..` segments for the part of `fromP` past the common prefix, then the
remainder of `toP`. -/
def pathRelative (fromP toP : FsPath) : FsPath :=
  let c := commonPrefixLen fromP toP
  List.replicate (fromP.length - c) ".." ++ toP.drop c

/-- Node `path.join` on segment paths (no `..` normalization is needed for the
paths produced here: claims are scoped to sources under the root). -/
def pathJoin (a b : FsPath) : FsPath := a ++ b

/-- The emitted-artifact suffixes of `makeDistCleaner` (utils/fs.ts line 105). -/
def EMITTED_SUFFIXES : List String :=
  [".js", ".js.map", ".d.ts", ".d.ts.map", ".mjs", ".mjs.map", ".cjs", ".cjs.map"]

/-- `toOutPath` from `makeDistCleaner` (utils/fs.ts lines 107-110). -/
def toOutPath (rootDirAbs outDirAbs srcPathAbs : FsPath) : FsPath :=
  pathJoin outDirAbs (pathRelative rootDirAbs srcPathAbs)

/-- The list of output paths targeted by `removeEmittedForSource`
(utils/fs.ts lines 112-116): the mirrored output path with its TS extension
stripped, combined with each emitted-artifact suffix.  The source removes each
of these with `rmIfExists`; the target computation itself is pure. -/
def removeEmittedForSource (rootDirAbs outDirAbs srcFileAbs : FsPath) : List FsPath :=
  let outLike := toOutPath rootDirAbs outDirAbs srcFileAbs
  let base := mapLast stripTsExt outLike
  EMITTED_SUFFIXES.map (fun s => mapLast (fun x => x ++ s) base)

/-- The mapping as worded by the spec (§4.1, §8 "Mapping correctness"): one
path per configured suffix, rooted under the output root at the position
mirroring the source's position under the source root, the source extension
removed before the suffix is appended. -/
def specEmittedArtifactPaths (rootDirAbs outDirAbs srcFileAbs : FsPath) : List FsPath :=
  EMITTED_SUFFIXES.map (fun s =>
    outDirAbs ++ mapLast (fun x => stripTsExt x ++ s) (srcFileAbs.drop rootDirAbs.length))

/-! ## Process runner (utils/process.ts `run`) -/

/-- JS `String.prototype.trim`: removes leading and trailing whitespace. -/
def trimJS (s : String) : String :=
  ⟨((s.data.dropWhile Char.isWhitespace).reverse.dropWhile Char.isWhitespace).reverse⟩

/-- The error message built by `run`'s exit handler (utils/process.ts
lines 73-83): the captured combined stdout+stderr, trimmed; or, when that is
empty, a synthesized `<cmd> <args> failed with exit code <code>` message. -/
def runError (cmd : String) (args : List String) (code : Int) (captured : String) : String :=
  if trimJS captured ≠ "" then trimJS captured
  else cmd ++ " " ++ String.intercalate " " args ++ " failed with exit code " ++ toString code

/-- `run(cmd, args, cwd)` outcome as a function of the process's exit code and
captured output: resolves only on exit code 0, otherwise rejects with
`runError`. -/
def runResult (cmd : String) (args : List String) (code : Int) (captured : String) :
    Except String Unit :=
  if code = 0 then .ok () else .error (runError cmd args code captured)

/-- Behaviour of one external process in one-shot mode: its exit code, its
captured combined output, and the artifact paths it wrote under the output
root before exiting. -/
structure ProcRun where
  exitCode : Int
  captured : String
  artifacts : List String
deriving DecidableEq

/-- The non-watch branch of `build` (core/builder.ts lines 99-118), as a
function from the two external runs to the final contents of the output root
and the surfaced result: clean the output root, run `tsc` then `tsc-alias`;
on failure clean the output root again and rethrow the `run` error. -/
def oneShotBuild (tsconfigPath : String) (tsc aliasRun : ProcRun) :
    List String × Except String Unit :=
  let tscArgs := ["-p", tsconfigPath, "--pretty"]
  let aliasArgs := ["-p", tsconfigPath]
  match runResult "tsc" tscArgs tsc.exitCode tsc.captured with
  | .error e => ([], .error e)
  | .ok _ =>
    match runResult "tsc-alias" aliasArgs aliasRun.exitCode aliasRun.captured with
    | .error e => ([], .error e)
    | .ok _ => (tsc.artifacts ++ aliasRun.artifacts, .ok ())

/-! ## Shutdown: killProcess (core/builder.ts lines 50-66) -/

/-- Environment of one `killProcess(name, p)` call: whether `p` is present,
the value of Node's `p.killed` flag on entry (true iff a signal was already
successfully sent to `p`), whether the graceful `p.kill()` send succeeds (on
success Node sets `p.killed` to true immediately), and whether the process
exits before the 2000 ms timeout fires. -/
structure KillScenario where
  present : Bool
  killedFlag : Bool
  gracefulSendOk : Bool
  exitsBeforeTimeout : Bool
deriving DecidableEq

/-- Observable outcome of `killProcess`: was a graceful termination request
sent, was SIGKILL sent, and did the returned promise resolve. -/
structure KillOutcome where
  gracefulSent : Bool
  sigkillSent : Bool
  resolved : Bool
deriving DecidableEq

/-- `killProcess` (core/builder.ts lines 50-66), following Node semantics of
`ChildProcess.killed`: if `p` is present and `!p.killed`, call `p.kill()`
(which sets `p.killed` when the signal is sent successfully); if the process
exits before the timeout, the exit listener resolves; otherwise the timeout
callback runs `if (!p.killed) p.kill("SIGKILL")` and resolves. -/
def killProcess (s : KillScenario) : KillOutcome :=
  if s.present && !s.killedFlag then
    let killedAfter := s.gracefulSendOk
    if s.exitsBeforeTimeout then ⟨true, false, true⟩
    else ⟨true, !killedAfter, true⟩
  else ⟨false, false, true⟩

/-! ## Console routing and shutdown output (core/builder.ts) -/

/-- Where a `console.log` line ends up. -/
inductive Sink where
  | realOut
  | display
  | dropped
deriving DecidableEq

/-- The routing of `console.log` as installed by `build`: in watch mode the
function is replaced by `(...) => state.ui?.logToBldr(...)` (lines 81-83), so
a line reaches the display only while `state.ui` is set and is a no-op after
`state.ui` is cleared; the override itself is never removed. -/
def logSink (watchOverride : Bool) (uiAlive : Bool) : Sink :=
  if watchOverride then (if uiAlive then .display else .dropped) else .realOut

/-- The `console.log` lines emitted by `shutdown` (core/builder.ts lines
39-70) with the sink each one reaches.  `shutdown` first destroys the UI and
clears `state.ui` (lines 34-37), then logs its status lines. -/
def shutdownLogSinks (watchOverride : Bool) : List (String × Sink) :=
  [("⏳ Shutting down...", logSink watchOverride false),
   ("✅ Src watcher closed", logSink watchOverride false),
   ("✅ All processes cleaned up", logSink watchOverride false)]

/-! ## Watch-mode startup (core/builder.ts lines 121-182) -/

/-- Ordered observable actions of the watch branch of `build` after the
output-directory clean. -/
inductive WatchEvent where
  | warnInitialFailure (msg : String)
  | spawnProcess (name : String)
  | attachPipes
  | startWatcher
  | fatalExit
deriving DecidableEq

/-- The watch branch (core/builder.ts lines 121-182) as a linear trace,
parameterized by the result of the initial `tsc` / `tsc-alias` pass: a failure
is caught and reported to the UI (lines 127-133), after which both long-running
processes are spawned, output pipes attached, and the source watcher started. -/
def watchModeTrace (initialResult : Except String Unit) : List WatchEvent :=
  (match initialResult with
   | .ok _ => []
   | .error e => [.warnInitialFailure e]) ++
  [.spawnProcess "tsc", .spawnProcess "tsc-alias", .attachPipes, .startWatcher]

/-! ## Shutdown re-entrancy guard (core/builder.ts lines 29-32) -/

/-- One invocation of `shutdown` observing the `inProgress` flag: returns the
new flag value and whether this invocation runs the teardown body.  The check
and the assignment are synchronous (no await between them). -/
def shutdownGuardStep (inProgress : Bool) : Bool × Bool :=
  if inProgress then (true, false) else (true, true)

/-- `n` shutdown triggers (signals, managed-process exits, display exit
actions) arriving in sequence, starting from flag value `flag`: returns the
number of trigger invocations that run the teardown body. -/
def runShutdownTriggers : Nat → Bool → Nat
  | 0, _ => 0
  | n + 1, flag =>
    let s := shutdownGuardStep flag
    (if s.2 then 1 else 0) + runShutdownTriggers n s.1

/-! ## The operation queue (core/builder.ts lines 184-198)

```
const operationQueue = new Map<string, Promise<void>>();
const MAX_CONCURRENT_OPERATIONS = 10;

async function queuedOperation(key, operation) {
  const existing = operationQueue.get(key);
  if (existing) await existing;
  while (operationQueue.size >= MAX_CONCURRENT_OPERATIONS) {
    await Promise.race(operationQueue.values());
  }
  const promise = operation().finally(() => operationQueue.delete(key));
  operationQueue.set(key, promise);
  return promise;
}
```

Small-step model of the single-threaded JS microtask semantics.  Each
`unlink` event is a *call* of `queuedOperation` (keys are numbered); each
started `operation()` is an *op*, identified by its creation index (its
promise id).  A call runs synchronously until its first `await`:

* at entry it reads `operationQueue.get(key)`; a hit suspends it on that
  promise (`awaitExisting`);
* resumed from `awaitExisting` (or `racing`) it re-enters the `while` check:
  at or above the ceiling it suspends on `Promise.race` of the current map
  values (`racing`); below it, it starts its operation, registers the
  `finally`, stores the promise in the map, and suspends awaiting its own
  promise (`awaitOwn`, modelling the handler's `await queuedOperation(...)`).

The environment settles one in-flight op per step (`stepQ`), with a success
or failure result.  On settling, the `finally` first deletes the op's key
from the map, then every call suspended on that promise is resumed in order;
a rejected promise makes `await existing` / `await Promise.race` rethrow, so
the waiter completes with that error without starting its own operation. -/

/-- Result with which an operation's promise settles. -/
inductive QRes where
  | ok
  | err (e : Nat)
deriving DecidableEq

/-- Suspension state of one `queuedOperation` call. -/
inductive PC where
  | entry
  | awaitExisting (p : Nat)
  | racing (ps : List Nat)
  | awaitOwn (p : Nat)
  | done (r : QRes)
deriving DecidableEq

/-- One call of `queuedOperation`: its key, where it is suspended, and
whether it has started its `operation()`. -/
structure Call where
  key : Nat
  pc : PC
  started : Bool
deriving DecidableEq

/-- One started operation: its key, the index of the call that started it,
and whether it is still in flight. -/
structure Op where
  key : Nat
  owner : Nat
  alive : Bool
deriving DecidableEq

/-- A configuration of the queue machine: the `operationQueue` map (an
association list, keys unique, insertion-ordered, value = promise id), the
calls (indexed by arrival order) and the ops (indexed by promise id). -/
structure Cfg where
  operationQueue : List (Nat × Nat)
  calls : List Call
  ops : List Op
deriving DecidableEq

/-- `MAX_CONCURRENT_OPERATIONS` (core/builder.ts line 185). -/
def MAX_CONCURRENT_OPERATIONS : Nat := 10

/-- Positional lookup, as JS `list[i]`. -/
def nth : List α → Nat → Option α
  | [], _ => none
  | a :: _, 0 => some a
  | _ :: t, n + 1 => nth t n

/-- JS `Map.get`. -/
def lookupA (k : Nat) : List (Nat × Nat) → Option Nat
  | [] => none
  | (k', v) :: t => if k' = k then some v else lookupA k t

/-- JS `Map.set`: replaces in place, or appends a new entry. -/
def setA (k v : Nat) : List (Nat × Nat) → List (Nat × Nat)
  | [] => [(k, v)]
  | (k', v') :: t => if k' = k then (k, v) :: t else (k', v') :: setA k v t

/-- JS `Map.delete`. -/
def delA (k : Nat) : List (Nat × Nat) → List (Nat × Nat)
  | [] => []
  | (k', v') :: t => if k' = k then t else (k', v') :: delA k t

/-- `operation().finally(...)` followed by `operationQueue.set(key, promise)`:
call `i` starts its operation (a fresh op, promise id = `ops.length`). -/
def startOp (cfg : Cfg) (i : Nat) (c : Call) : Cfg :=
  let pid := cfg.ops.length
  { operationQueue := setA c.key pid cfg.operationQueue
    calls := cfg.calls.set i { c with pc := .awaitOwn pid, started := true }
    ops := cfg.ops ++ [⟨c.key, i, true⟩] }

/-- The `while (operationQueue.size >= MAX_CONCURRENT_OPERATIONS)` check for
call `i`: at or above the ceiling, suspend on `Promise.race` of the current
map values; below it, start the operation. -/
def ceilingRun (cfg : Cfg) (i : Nat) : Cfg :=
  match nth cfg.calls i with
  | none => cfg
  | some c =>
    if MAX_CONCURRENT_OPERATIONS ≤ cfg.operationQueue.length then
      { cfg with calls :=
          cfg.calls.set i { c with pc := .racing (cfg.operationQueue.map Prod.snd) } }
    else startOp cfg i c

/-- The synchronous prefix of a fresh `queuedOperation` call `i`:
`operationQueue.get(key)` hits suspend on the existing promise, otherwise the
call proceeds to the ceiling check. -/
def entryRun (cfg : Cfg) (i : Nat) : Cfg :=
  match nth cfg.calls i with
  | none => cfg
  | some c =>
    match lookupA c.key cfg.operationQueue with
    | some p => { cfg with calls := cfg.calls.set i { c with pc := .awaitExisting p } }
    | none => ceilingRun cfg i

/-- Resume call `i` after promise `pid` settled with result `r`.  A waiter on
the settled promise re-enters the `while` check on success, or rethrows the
rejection (completing without starting its operation); the owner completes
with the result.  Calls not suspended on `pid` are untouched. -/
def resumeCall (pid : Nat) (r : QRes) (cfg : Cfg) (i : Nat) : Cfg :=
  match nth cfg.calls i with
  | none => cfg
  | some c =>
    match c.pc with
    | .awaitExisting p =>
      if p = pid then
        match r with
        | .ok => ceilingRun cfg i
        | .err e => { cfg with calls := cfg.calls.set i { c with pc := .done (.err e) } }
      else cfg
    | .racing ps =>
      if pid ∈ ps then
        match r with
        | .ok => ceilingRun cfg i
        | .err e => { cfg with calls := cfg.calls.set i { c with pc := .done (.err e) } }
      else cfg
    | .awaitOwn p =>
      if p = pid then { cfg with calls := cfg.calls.set i { c with pc := .done r } }
      else cfg
    | _ => cfg

/-- Resume calls `0, 1, ..., n-1` in order (the microtask queue preserves
attach order; within one settle the resumed continuations run one at a time,
each to its next suspension, before the next one runs). -/
def cascade (pid : Nat) (r : QRes) (cfg : Cfg) : Nat → Cfg
  | 0 => cfg
  | n + 1 => resumeCall pid r (cascade pid r cfg n) n

/-- Promise `pid` settles with result `r`: the op is no longer in flight, its
`finally` deletes its key from the map (unconditionally — also when the entry
was meanwhile overwritten by a younger promise for the same key), then all
waiters are resumed in order. -/
def settle (cfg : Cfg) (pid : Nat) (r : QRes) : Cfg :=
  match nth cfg.ops pid with
  | none => cfg
  | some op =>
    if op.alive then
      let cfg1 : Cfg :=
        { cfg with ops := cfg.ops.set pid { op with alive := false },
                   operationQueue := delA op.key cfg.operationQueue }
      cascade pid r cfg1 cfg1.calls.length
    else cfg

/-- The promise ids of the ops currently in flight. -/
def runningPids (cfg : Cfg) : List Nat :=
  (List.range cfg.ops.length).filter (fun p => ((nth cfg.ops p).map Op.alive).getD false)

/-- One environment step: the schedule entry chooses which in-flight op
settles (by index into `runningPids`, modulo their number) and with what
result.  With nothing in flight the configuration is unchanged. -/
def stepQ (cfg : Cfg) (ch : Nat × QRes) : Cfg :=
  if (runningPids cfg).length = 0 then cfg
  else settle cfg ((runningPids cfg).getD (ch.1 % (runningPids cfg).length) 0) ch.2

/-- Run the machine under a schedule. -/
def runQ (cfg : Cfg) (sched : List (Nat × QRes)) : Cfg :=
  sched.foldl stepQ cfg

/-- A new `unlink` event for key `k` arrives: the handler calls
`queuedOperation(k, ...)`, which runs synchronously to its first suspension. -/
def enqueueKey (cfg : Cfg) (k : Nat) : Cfg :=
  entryRun { cfg with calls := cfg.calls ++ [⟨k, .entry, false⟩] } cfg.calls.length

/-- A burst of `unlink` events, arriving back-to-back (each handler runs its
synchronous prefix before the next event is processed). -/
def initCfg (keys : List Nat) : Cfg :=
  keys.foldl enqueueKey ⟨[], [], []⟩

/-- Does an in-flight op for key `k` exist at promise id `p`? -/
def aliveAt (cfg : Cfg) (p : Nat) : Prop :=
  ∃ o, nth cfg.ops p = some o ∧ o.alive = true

/-- Number of ops currently in flight. -/
def aliveCount (cfg : Cfg) : Nat :=
  cfg.ops.countP (·.alive)

/-- Number of in-flight ops for key `k`. -/
def aliveForKey (cfg : Cfg) (k : Nat) : Nat :=
  cfg.ops.countP (fun o => o.alive && o.key == k)

/-- Has a call completed (its returned promise settled, successfully or not)? -/
def isDone : PC → Bool
  | .done _ => true
  | _ => false

/-- Every call has completed. -/
def allDone (cfg : Cfg) : Prop :=
  ∀ c ∈ cfg.calls, isDone c.pc = true

/-- The configuration after a burst of exactly two `unlink` events for the
same key (key 0): the first call's operation is in flight, the second call
awaits the existing promise. -/
def qcfgA : Cfg :=
  ⟨[(0, 0)], [⟨0, .awaitOwn 0, true⟩, ⟨0, .awaitExisting 0, false⟩], [⟨0, 0, true⟩]⟩

/-- ... after the first operation settled successfully: the second call has
started its operation (promise id 1). -/
def qcfgB : Cfg :=
  ⟨[(0, 1)], [⟨0, .done .ok, true⟩, ⟨0, .awaitOwn 1, true⟩], [⟨0, 0, false⟩, ⟨0, 1, true⟩]⟩

/-- ... after the first operation settled with error `e`: both calls complete
with that error, the second never having started its operation. -/
def qcfgE (e : Nat) : Cfg :=
  ⟨[], [⟨0, .done (.err e), true⟩, ⟨0, .done (.err e), false⟩], [⟨0, 0, false⟩]⟩

/-- ... after the second operation settled with result `r`: both calls
complete and the pending map is empty. -/
def qcfgC (r : QRes) : Cfg :=
  ⟨[], [⟨0, .done .ok, true⟩, ⟨0, .done r, true⟩], [⟨0, 0, false⟩, ⟨0, 1, false⟩]⟩

/-- Call `j` has never started an operation: no op is owned by it. -/
def NoOwner (cfg : Cfg) (j : Nat) : Prop :=
  ∀ q oq, nth cfg.ops q = some oq → oq.owner ≠ j

/-- The basic pending-map invariant of the queue machine (it holds for
arbitrary keys and schedules): every entry of `operationQueue` points at an
op that is still in flight and carries the entry's key, and entries have
pairwise distinct keys. -/
structure Inv1 (cfg : Cfg) : Prop where
  map_valid : ∀ k p, (k, p) ∈ cfg.operationQueue →
    ∃ o, nth cfg.ops p = some o ∧ o.key = k ∧ o.alive = true
  map_keys_nodup : (cfg.operationQueue.map Prod.fst).Nodup

/-- Promise `p` is an in-flight op of the op list `ops`. -/
def aliveAtOps (ops : List Op) (p : Nat) : Prop :=
  ∃ o, nth ops p = some o ∧ o.alive = true

/-- `p` is in flight, or is the exempted promise `ex` (the one currently
being settled, whose waiters have not all been resumed yet). -/
def aliveOrEx (ops : List Op) (ex : Option Nat) (p : Nat) : Prop :=
  aliveAtOps ops p ∨ some p = ex

/-- The suspension of a call is consistent with the op list: a suspended call
waits only on in-flight promises (or the exempted one), a racer's set is
nonempty, waiters have not started, and no call is stuck before its first
suspension. -/
def WaitOKg (ops : List Op) (ex : Option Nat) (c : Call) : Prop :=
  match c.pc with
  | .entry => False
  | .awaitExisting p => c.started = false ∧ aliveOrEx ops ex p
  | .racing ps => c.started = false ∧ ps ≠ [] ∧ ∀ p ∈ ps, aliveOrEx ops ex p
  | .awaitOwn p => aliveOrEx ops ex p
  | .done _ => True

/-- Does the suspension of call `c` mention promise `pid`? -/
def RefsPid (pid : Nat) (c : Call) : Prop :=
  match c.pc with
  | .awaitExisting p => p = pid
  | .racing ps => pid ∈ ps
  | .awaitOwn p => p = pid
  | _ => False

/-- The full invariant of the queue machine for a burst of calls with keys
`keys` (used with `keys.Nodup`; `ex` exempts the promise currently being
settled while its waiters are resumed). -/
structure WFg (keys : List Nat) (ex : Option Nat) (cfg : Cfg) : Prop where
  calls_len : cfg.calls.length = keys.length
  key_eq : ∀ i c, nth cfg.calls i = some c → nth keys i = some c.key
  map_le : cfg.operationQueue.length ≤ MAX_CONCURRENT_OPERATIONS
  inv1 : Inv1 cfg
  alive_owner : ∀ p o, nth cfg.ops p = some o → o.alive = true →
      ∃ c, nth cfg.calls o.owner = some c ∧ c.key = o.key ∧ c.started = true ∧
        c.pc = .awaitOwn p
  alive_in_map : ∀ p o, nth cfg.ops p = some o → o.alive = true →
      lookupA o.key cfg.operationQueue = some p
  count_eq : aliveCount cfg = cfg.operationQueue.length
  pc_wait : ∀ i c, nth cfg.calls i = some c → WaitOKg cfg.ops ex c

/-- Number of calls whose returned promise has settled. -/
def doneCount (cfg : Cfg) : Nat :=
  cfg.calls.countP (fun c => isDone c.pc)

/-- The set of configurations reachable from the two-enqueue burst. -/
def Pair2Inv (cfg : Cfg) : Prop :=
  cfg = qcfgA ∨ cfg = qcfgB ∨ (∃ e, cfg = qcfgE e) ∨ (∃ r, cfg = qcfgC r)

/-! ## Positional-lookup lemmas -/

theorem nth_lt_length {α : Type} : ∀ {l : List α} {i : Nat} {a : α},
    nth l i = some a → i < l.length := by
  intro l
  induction l with
  | nil => intro i a h; simp [nth] at h
  | cons x t ih =>
    intro i a h
    cases i with
    | zero => simp
    | succ n => simpa using ih (by simpa [nth] using h)

theorem nth_of_lt {α : Type} : ∀ {l : List α} {i : Nat},
    i < l.length → ∃ a, nth l i = some a := by
  intro l
  induction l with
  | nil => intro i h; simp at h
  | cons x t ih =>
    intro i h
    cases i with
    | zero => exact ⟨x, rfl⟩
    | succ n => exact ih (by simpa using h)

theorem nth_set_self {α : Type} : ∀ {l : List α} {i : Nat} {a : α} (b : α),
    nth l i = some a → nth (l.set i b) i = some b := by
  intro l
  induction l with
  | nil => intro i a b h; simp [nth] at h
  | cons x t ih =>
    intro i a b h
    cases i with
    | zero => rfl
    | succ n => simpa [nth, List.set] using ih b (by simpa [nth] using h)

theorem nth_set_ne {α : Type} : ∀ (l : List α) (i j : Nat) (b : α),
    i ≠ j → nth (l.set i b) j = nth l j := by
  intro l
  induction l with
  | nil => intro i j b _; simp [List.set]
  | cons x t ih =>
    intro i j b hij
    cases i with
    | zero =>
      cases j with
      | zero => exact absurd rfl hij
      | succ m => rfl
    | succ n =>
      cases j with
      | zero => rfl
      | succ m => simpa [nth, List.set] using ih n m b (by omega)

theorem nth_append_left {α : Type} : ∀ {l₁ : List α} (l₂ : List α) {i : Nat},
    i < l₁.length → nth (l₁ ++ l₂) i = nth l₁ i := by
  intro l₁
  induction l₁ with
  | nil => intro l₂ i h; simp at h
  | cons x t ih =>
    intro l₂ i h
    cases i with
    | zero => rfl
    | succ n => simpa [nth] using ih l₂ (by simpa using h)

theorem nth_append_ge {α : Type} : ∀ {l₁ : List α} (l₂ : List α) {i : Nat},
    l₁.length ≤ i → nth (l₁ ++ l₂) i = nth l₂ (i - l₁.length) := by
  intro l₁
  induction l₁ with
  | nil => intro l₂ i _; simp [nth]
  | cons x t ih =>
    intro l₂ i h
    cases i with
    | zero => simp at h
    | succ n => simpa [nth] using ih l₂ (by simpa using h)

theorem nth_append_self {α : Type} (l : List α) (a : α) :
    nth (l ++ [a]) l.length = some a := by
  rw [nth_append_ge [a] (Nat.le_refl _)]
  simp [nth]

theorem nth_mem {α : Type} : ∀ {l : List α} {i : Nat} {a : α},
    nth l i = some a → a ∈ l := by
  intro l
  induction l with
  | nil => intro i a h; simp [nth] at h
  | cons x t ih =>
    intro i a h
    cases i with
    | zero => simp [nth] at h; simp [h]
    | succ n => exact List.mem_cons_of_mem x (ih (by simpa [nth] using h))

theorem mem_nth {α : Type} : ∀ {l : List α} {a : α},
    a ∈ l → ∃ i, nth l i = some a := by
  intro l
  induction l with
  | nil => intro a h; simp at h
  | cons x t ih =>
    intro a h
    rcases List.mem_cons.1 h with h | h
    · exact ⟨0, by simp [nth, h]⟩
    · rcases ih h with ⟨i, hi⟩
      exact ⟨i + 1, by simpa [nth] using hi⟩

theorem nth_set_cases {α : Type} {l : List α} {i j : Nat} {b : α} :
    nth (l.set i b) j = nth l j ∨ (i = j ∧ nth (l.set i b) j = some b) := by
  by_cases hij : i = j
  · subst hij
    by_cases hlt : i < l.length
    · rcases nth_of_lt hlt with ⟨a, ha⟩
      exact Or.inr ⟨rfl, nth_set_self b ha⟩
    · left
      rw [List.set_eq_of_length_le (by omega)]
  · exact Or.inl (nth_set_ne l i j b hij)

/-! ## Claim C2 — shutdown kill escalation (code bug) -/

/-- C2: the claim states that a forced kill (SIGKILL) is issued when the
graceful-termination timeout elapses without the process exiting.  Evaluating
`killProcess` at exactly that situation — process present, no signal sent yet,
the graceful `kill()` succeeds (so Node sets `p.killed`), and the process does
not exit before the timeout — shows the code sends the graceful request and
resolves after the timeout *without* ever sending SIGKILL: the timeout
callback's `if (!p.killed)` guard is always false once the graceful send
succeeded, because `ChildProcess.killed` records that a signal was sent, not
that the process exited. -/
theorem c2_code_evaluation :
    (killProcess ⟨true, false, true, false⟩).gracefulSent = true ∧
    (killProcess ⟨true, false, true, false⟩).sigkillSent = false ∧
    (killProcess ⟨true, false, true, false⟩).resolved = true := by
  decide

/-! ## Claim C4 — one-shot failure cleanup and error detail (corrected) -/

/-- C4 counterexample: with a whitespace-only captured buffer (`" "`, which is
not empty) and a failing compiler (exit code 2), the claim as stated requires
the surfaced error to carry the captured text trimmed (`""`); the code instead
surfaces the synthesized message, because `run` falls back to it whenever the
*trimmed* buffer is empty, not only when the buffer itself is empty. -/
theorem c4_counterexample :
    (oneShotBuild "tsconfig.json" ⟨2, " ", ["a.js"]⟩ ⟨0, "", []⟩).2 =
      .error "tsc -p tsconfig.json --pretty failed with exit code 2" ∧
    (" " : String) ≠ "" ∧
    trimJS " " = "" ∧
    "tsc -p tsconfig.json --pretty failed with exit code 2" ≠ trimJS " " ∧
    (oneShotBuild "tsconfig.json" ⟨2, " ", ["a.js"]⟩ ⟨0, "", []⟩).1 = [] := by
  exact ⟨rfl, by decide, by decide, by decide, rfl⟩

/-- C4 (amended): in one-shot mode, if the compiler step exits non-zero, the
output root ends up empty (no partial artifacts remain) and the surfaced
error is the failing process's captured combined output trimmed, or — when
the captured buffer is empty *after trimming* — a synthesized message naming
the command and exit code. -/
theorem c4_amended (tsconfigPath : String) (tsc aliasRun : ProcRun)
    (h : tsc.exitCode ≠ 0) :
    oneShotBuild tsconfigPath tsc aliasRun =
      ([], .error (runError "tsc" ["-p", tsconfigPath, "--pretty"] tsc.exitCode tsc.captured)) ∧
    (trimJS tsc.captured ≠ "" →
      runError "tsc" ["-p", tsconfigPath, "--pretty"] tsc.exitCode tsc.captured =
        trimJS tsc.captured) ∧
    (trimJS tsc.captured = "" →
      runError "tsc" ["-p", tsconfigPath, "--pretty"] tsc.exitCode tsc.captured =
        "tsc" ++ " " ++ String.intercalate " " ["-p", tsconfigPath, "--pretty"] ++
          " failed with exit code " ++ toString tsc.exitCode) := by
  refine ⟨?_, ?_, ?_⟩
  · simp only [oneShotBuild, runResult, if_neg h]
  · intro hn; simp [runError, hn]
  · intro hz; simp [runError, hz]

/-- Witness for C4's amended theorem at a concrete failing run. -/
theorem c4_amended_witness :
    oneShotBuild "t" ⟨1, "boom", ["x.js"]⟩ ⟨0, "", []⟩ = ([], .error "boom") := by
  have h := c4_amended "t" ⟨1, "boom", ["x.js"]⟩ ⟨0, "", []⟩ (by decide)
  rw [h.1, h.2.1 (by decide)]
  exact rfl

/-! ## Claim C6 — shutdown output visibility (code bug) -/

/-- C6: the claim states every shutdown status line emitted after the display
teardown is visible on the real standard output.  Evaluating the modelled
routing: in watch mode `console.log` stays overridden to
`state.ui?.logToBldr(...)` after `state.ui` is cleared, so each of the
shutdown status lines is a no-op (dropped), not written to the real standard
output. -/
theorem c6_code_evaluation :
    (shutdownLogSinks true).map Prod.snd = [.dropped, .dropped, .dropped] ∧
    (∀ s ∈ (shutdownLogSinks true).map Prod.snd, s ≠ Sink.realOut) ∧
    (shutdownLogSinks false).map Prod.snd = [.realOut, .realOut, .realOut] := by
  decide

/-! ## Claim C7 — watch mode tolerates an initial build failure -/

/-- C7: in watch mode a failing initial build pass is reported (as a warning
into the display) and is not fatal: the trace still spawns both long-running
processes, attaches output routing, and starts the source-tree deletion
watcher, exactly as on a successful initial pass. -/
theorem c7_watch_tolerates_failure (e : String) :
    watchModeTrace (.error e) =
      .warnInitialFailure e :: watchModeTrace (.ok ()) ∧
    WatchEvent.fatalExit ∉ watchModeTrace (.error e) ∧
    WatchEvent.spawnProcess "tsc" ∈ watchModeTrace (.error e) ∧
    WatchEvent.spawnProcess "tsc-alias" ∈ watchModeTrace (.error e) ∧
    WatchEvent.attachPipes ∈ watchModeTrace (.error e) ∧
    WatchEvent.startWatcher ∈ watchModeTrace (.error e) := by
  refine ⟨rfl, ?_, ?_, ?_, ?_, ?_⟩ <;> simp [watchModeTrace]

/-! ## Claim C8 — shutdown runs at most once -/

theorem runShutdownTriggers_true : ∀ n : Nat, runShutdownTriggers n true = 0 := by
  intro n
  induction n with
  | zero => rfl
  | succ m ih => simpa [runShutdownTriggers, shutdownGuardStep] using ih

/-- C8: the shutdown coordinator runs at most once: any positive number of
triggers runs the teardown body exactly once (the first sets the
`inProgress` flag), and once the flag is set every further trigger returns
immediately, running no teardown at all. -/
theorem c8_shutdown_once (n : Nat) :
    runShutdownTriggers (n + 1) false = 1 ∧ runShutdownTriggers n true = 0 := by
  refine ⟨?_, runShutdownTriggers_true n⟩
  simp [runShutdownTriggers, shutdownGuardStep, runShutdownTriggers_true n]

/-! ## Claim C10 — the parser silently skips unrecognized arguments -/

theorem keepRecognized_head_flag : ∀ (l : List String) (h : String) (t : List String),
    keepRecognized l = h :: t → startsWithJS h "-" = true := by
  intro l
  induction l using keepRecognized.induct with
  | case1 => intro h t he; simp [keepRecognized] at he
  | case2 a rest hw ih =>
    intro h t he
    rw [keepRecognized.eq_def] at he
    simp only [if_pos hw] at he
    rcases hw with hw | hw <;> (cases he; subst hw; decide)
  | case3 a hnw hp =>
    intro h t he
    rw [keepRecognized.eq_def] at he
    simp only [if_neg hnw, if_pos hp] at he
    rcases hp with hp | hp <;> (cases he; subst hp; decide)
  | case4 a hnw hp next rest2 hgood ih =>
    intro h t he
    rw [keepRecognized.eq_def] at he
    simp only [if_neg hnw, if_pos hp, if_pos hgood] at he
    rcases hp with hp | hp <;> (cases he; subst hp; decide)
  | case5 a hnw hp next rest2 hbad ih =>
    intro h t he
    rw [keepRecognized.eq_def] at he
    simp only [if_neg hnw, if_pos hp, if_neg hbad] at he
    rcases hp with hp | hp <;> (cases he; subst hp; decide)
  | case6 a rest hnw hnp hh ih =>
    intro h t he
    rw [keepRecognized.eq_def] at he
    simp only [if_neg hnw, if_neg hnp, if_pos hh] at he
    rcases hh with hh | hh <;> (cases he; subst hh; decide)
  | case7 a rest hnw hnp hnh ih =>
    intro h t he
    rw [keepRecognized.eq_def] at he
    simp only [if_neg hnw, if_neg hnp, if_neg hnh] at he
    exact ih h t he

theorem parseLoop_keep : ∀ (argv : List String) (w : Bool) (pr : Option String),
    parseLoop (keepRecognized argv) w pr = parseLoop argv w pr := by
  intro argv
  induction argv using keepRecognized.induct with
  | case1 =>
    intro w pr
    rw [keepRecognized.eq_def]
  | case2 a rest hw ih =>
    intro w pr
    rw [keepRecognized.eq_def]
    simp only [if_pos hw]
    rw [parseLoop.eq_def, parseLoop.eq_def]
    simp only [if_pos hw]
    exact ih true pr
  | case3 a hnw hp =>
    intro w pr
    rw [keepRecognized.eq_def]
    simp only [if_neg hnw, if_pos hp]
  | case4 a hnw hp next rest2 hgood ih =>
    intro w pr
    rw [keepRecognized.eq_def]
    simp only [if_neg hnw, if_pos hp, if_pos hgood]
    rw [parseLoop.eq_def, parseLoop.eq_def]
    simp only [if_neg hnw, if_pos hp, if_pos hgood]
    exact ih w (some next)
  | case5 a hnw hp next rest2 hbad ih =>
    intro w pr
    rw [keepRecognized.eq_def]
    simp only [if_neg hnw, if_pos hp, if_neg hbad]
    rw [parseLoop.eq_def]
    simp only [if_neg hnw, if_pos hp]
    conv_rhs => rw [parseLoop.eq_def]
    simp only [if_neg hnw, if_pos hp, if_neg hbad]
    rcases hk : keepRecognized (next :: rest2) with _ | ⟨h1, t1⟩
    · rfl
    · have hflag := keepRecognized_head_flag _ _ _ hk
      have hno : ¬(h1 ≠ "" ∧ ¬ startsWithJS h1 "-" = true) := by
        intro hc
        exact hc.2 hflag
      simp only [if_neg hno]
  | case6 a rest hnw hnp hh ih =>
    intro w pr
    rw [keepRecognized.eq_def]
    simp only [if_neg hnw, if_neg hnp, if_pos hh]
    rw [parseLoop.eq_def, parseLoop.eq_def]
    simp only [if_neg hnw, if_neg hnp, if_pos hh]
  | case7 a rest hnw hnp hnh ih =>
    intro w pr
    rw [keepRecognized.eq_def]
    simp only [if_neg hnw, if_neg hnp, if_neg hnh]
    conv_rhs => rw [parseLoop.eq_def]
    simp only [if_neg hnw, if_neg hnp, if_neg hnh]
    exact ih w pr

theorem parseLoop_skip : ∀ (argv : List String) (w : Bool) (pr : Option String),
    (∀ a ∈ argv, a ∉ recognizedFlags) → parseLoop argv w pr = .ok w pr := by
  intro argv
  induction argv with
  | nil => intro w pr _; rfl
  | cons a rest ih =>
    intro w pr hall
    have ha := hall a (List.mem_cons_self a rest)
    have h1 : ¬(a = "-w" ∨ a = "--watch") := by
      rintro (rfl | rfl) <;> simp [recognizedFlags] at ha
    have h2 : ¬(a = "-p" ∨ a = "--project") := by
      rintro (rfl | rfl) <;> simp [recognizedFlags] at ha
    have h3 : ¬(a = "-h" ∨ a = "--help") := by
      rintro (rfl | rfl) <;> simp [recognizedFlags] at ha
    rw [parseLoop.eq_def]
    simp only [if_neg h1, if_neg h2, if_neg h3]
    exact ih w pr (fun b hb => hall b (List.mem_cons_of_mem a hb))

/-- C10: the CLI parser silently skips every argument other than the
`-w`/`--watch`, `-p`/`--project` and `-h`/`--help` forms: the result of
parsing any argument vector equals the result of parsing only the retained
recognized arguments (the six flags together with a well-formed `-p` path
argument), and a vector containing no recognized flag at all parses to the
default `Args` with no usage error. -/
theorem c10_parser_skips :
    (∀ argv : List String, parseArgs argv = parseArgs (keepRecognized argv)) ∧
    (∀ argv : List String, (∀ a ∈ argv, a ∉ recognizedFlags) →
      parseArgs argv = .ok false none) := by
  constructor
  · intro argv
    exact (parseLoop_keep argv false none).symm
  · intro argv h
    exact parseLoop_skip argv false none h

/-- Witness for C10 at concrete argument vectors containing unrecognized
flags and stray positionals. -/
theorem c10_parser_skips_witness :
    parseArgs ["junk", "-w", "stray", "-p", "cfg/tsconfig.json", "--bogus"] =
      parseArgs (keepRecognized ["junk", "-w", "stray", "-p", "cfg/tsconfig.json", "--bogus"]) ∧
    parseArgs ["junk", "stray"] = .ok false none :=
  ⟨c10_parser_skips.1 _, c10_parser_skips.2 ["junk", "stray"] (by decide)⟩

/-! ## Claim C3 — emitted-artifact path mapping -/

theorem mapLast_cons_cons (f : String → String) (x y : String) (xs : List String) :
    mapLast f (x :: y :: xs) = x :: mapLast f (y :: xs) := rfl

theorem mapLast_ne_nil (f : String → String) :
    ∀ (l : FsPath), l ≠ [] → mapLast f l ≠ [] := by
  intro l
  cases l with
  | nil => intro h; exact absurd rfl h
  | cons x xs =>
    intro _
    cases xs <;> simp [mapLast]

theorem mapLast_append (pre : FsPath) (l : FsPath) (h : l ≠ []) (f : String → String) :
    mapLast f (pre ++ l) = pre ++ mapLast f l := by
  induction pre with
  | nil => rfl
  | cons x pre' ih =>
    rcases List.exists_cons_of_ne_nil (show pre' ++ l ≠ [] by simp [h]) with ⟨y, t, e⟩
    calc mapLast f ((x :: pre') ++ l) = mapLast f (x :: (pre' ++ l)) := rfl
      _ = x :: mapLast f (pre' ++ l) := by rw [e]; exact mapLast_cons_cons f x y t
      _ = x :: (pre' ++ mapLast f l) := by rw [ih]
      _ = (x :: pre') ++ mapLast f l := rfl

theorem mapLast_mapLast (f g : String → String) :
    ∀ (l : FsPath), mapLast f (mapLast g l) = mapLast (fun x => f (g x)) l := by
  intro l
  induction l with
  | nil => rfl
  | cons x xs ih =>
    cases xs with
    | nil => rfl
    | cons y ys =>
      rcases List.exists_cons_of_ne_nil
        (show mapLast g (y :: ys) ≠ [] from mapLast_ne_nil g _ (by simp)) with ⟨z, t, e⟩
      calc mapLast f (mapLast g (x :: y :: ys))
          = mapLast f (x :: mapLast g (y :: ys)) := rfl
        _ = x :: mapLast f (mapLast g (y :: ys)) := by rw [e]; exact mapLast_cons_cons f x z t
        _ = x :: mapLast (fun x => f (g x)) (y :: ys) := by rw [ih]
        _ = mapLast (fun x => f (g x)) (x :: y :: ys) := rfl

theorem string_append_left_cancel {a s t : String} (h : a ++ s = a ++ t) : s = t := by
  have hd := congrArg String.data h
  simp at hd
  exact String.ext hd

theorem mapLast_append_inj : ∀ (base : FsPath), base ≠ [] → ∀ (s t : String),
    mapLast (fun x => x ++ s) base = mapLast (fun x => x ++ t) base → s = t := by
  intro base
  induction base with
  | nil => intro h; exact absurd rfl h
  | cons x xs ih =>
    intro _ s t he
    cases xs with
    | nil =>
      simp only [mapLast, List.cons.injEq] at he
      exact string_append_left_cancel he.1
    | cons y ys =>
      simp only [mapLast_cons_cons, List.cons.injEq] at he
      exact ih (by simp) s t he.2

theorem commonPrefixLen_append (root rest : FsPath) :
    commonPrefixLen root (root ++ rest) = root.length := by
  induction root with
  | nil => rfl
  | cons x xs ih => simp [commonPrefixLen, ih]

theorem pathRelative_append (root rest : FsPath) :
    pathRelative root (root ++ rest) = rest := by
  simp [pathRelative, commonPrefixLen_append, List.drop_left]

/-- C3: for every source file strictly under the source root (written
`rootDirAbs ++ rel`, `rel ≠ []`) with a recognized TypeScript-like extension
on its final segment, the emitted-artifact mapping of `makeDistCleaner`
produces exactly the paths the spec describes — one per configured suffix,
rooted under the output root at the mirrored position, with the source
extension stripped before the suffix is appended — and the eight targeted
paths are pairwise distinct.  The mapping is a pure function of its inputs
(the embedding is purely functional, so determinism and absence of side
effects on the inputs hold by construction). -/
theorem c3_mapping (rootDirAbs outDirAbs rel : FsPath) (hne : rel ≠ [])
    (_hts : isTsLike (rel.getLast hne) = true) :
    removeEmittedForSource rootDirAbs outDirAbs (rootDirAbs ++ rel) =
      specEmittedArtifactPaths rootDirAbs outDirAbs (rootDirAbs ++ rel) ∧
    (removeEmittedForSource rootDirAbs outDirAbs (rootDirAbs ++ rel)).length =
      EMITTED_SUFFIXES.length ∧
    (removeEmittedForSource rootDirAbs outDirAbs (rootDirAbs ++ rel)).Nodup := by
  have hkey : ∀ s : String,
      mapLast (fun x => x ++ s) (mapLast stripTsExt (outDirAbs ++ rel)) =
        outDirAbs ++ mapLast (fun x => stripTsExt x ++ s) rel := by
    intro s
    rw [mapLast_append outDirAbs rel hne stripTsExt,
      mapLast_append outDirAbs _ (mapLast_ne_nil _ _ hne) (fun x => x ++ s),
      mapLast_mapLast]
  refine ⟨?_, by simp [removeEmittedForSource], ?_⟩
  · unfold removeEmittedForSource specEmittedArtifactPaths toOutPath pathJoin
    rw [pathRelative_append]
    apply List.map_congr_left
    intro s _
    rw [hkey s]
    rw [List.drop_left]
  · unfold removeEmittedForSource toOutPath pathJoin
    rw [pathRelative_append]
    apply List.Nodup.map
    · intro s t hst
      exact mapLast_append_inj _ (mapLast_ne_nil _ _ (by simp [hne])) s t hst
    · decide

/-- Witness for C3 at a concrete root, output root and source file. -/
theorem c3_mapping_witness :
    removeEmittedForSource ["r"] ["o"] (["r"] ++ ["a", "b.ts"]) =
      specEmittedArtifactPaths ["r"] ["o"] (["r"] ++ ["a", "b.ts"]) ∧
    (removeEmittedForSource ["r"] ["o"] (["r"] ++ ["a", "b.ts"])).length =
      EMITTED_SUFFIXES.length ∧
    (removeEmittedForSource ["r"] ["o"] (["r"] ++ ["a", "b.ts"])).Nodup :=
  c3_mapping ["r"] ["o"] ["a", "b.ts"] (by decide) (by decide)

/-! ## Association-list (JS Map) lemmas -/

theorem lookupA_mem : ∀ {m : List (Nat × Nat)} {k v : Nat},
    lookupA k m = some v → (k, v) ∈ m := by
  intro m
  induction m with
  | nil => intro k v h; simp [lookupA] at h
  | cons kv t ih =>
    intro k v h
    obtain ⟨k', v'⟩ := kv
    by_cases e : k' = k
    · subst e
      rw [lookupA, if_pos rfl] at h
      cases h
      exact List.mem_cons_self _ _
    · rw [lookupA, if_neg e] at h
      exact List.mem_cons_of_mem _ (ih h)

theorem mem_setA : ∀ {m : List (Nat × Nat)} {k v k' v' : Nat},
    (k', v') ∈ setA k v m → (k' = k ∧ v' = v) ∨ (k', v') ∈ m := by
  intro m
  induction m with
  | nil =>
    intro k v k' v' h
    simp [setA] at h
    exact Or.inl h
  | cons kv t ih =>
    intro k v k' v' h
    obtain ⟨k₀, v₀⟩ := kv
    by_cases e : k₀ = k
    · rw [setA, if_pos e] at h
      rcases List.mem_cons.1 h with h | h
      · cases h; exact Or.inl ⟨rfl, rfl⟩
      · exact Or.inr (List.mem_cons_of_mem _ h)
    · rw [setA, if_neg e] at h
      rcases List.mem_cons.1 h with h | h
      · cases h; exact Or.inr (List.mem_cons_self _ _)
      · rcases ih h with h | h
        · exact Or.inl h
        · exact Or.inr (List.mem_cons_of_mem _ h)

theorem keys_setA_mem : ∀ {m : List (Nat × Nat)} {k : Nat} (v : Nat),
    k ∈ m.map Prod.fst → (setA k v m).map Prod.fst = m.map Prod.fst := by
  intro m
  induction m with
  | nil => intro k v h; simp at h
  | cons kv t ih =>
    intro k v h
    obtain ⟨k₀, v₀⟩ := kv
    by_cases e : k₀ = k
    · rw [setA, if_pos e]; simp [e]
    · rw [setA, if_neg e]
      have hk : k ∈ t.map Prod.fst := by
        rcases List.mem_cons.1 h with h | h
        · exact absurd h.symm e
        · exact h
      simp [ih v hk]

theorem keys_setA_not_mem : ∀ {m : List (Nat × Nat)} {k : Nat} (v : Nat),
    k ∉ m.map Prod.fst → (setA k v m).map Prod.fst = m.map Prod.fst ++ [k] := by
  intro m
  induction m with
  | nil => intro k v _; rfl
  | cons kv t ih =>
    intro k v h
    obtain ⟨k₀, v₀⟩ := kv
    have e : ¬ k₀ = k := by
      intro e; exact h (by simp [e])
    rw [setA, if_neg e]
    have ht : k ∉ t.map Prod.fst := by
      intro hk; exact h (by simp [hk])
    simp [ih v ht]

theorem setA_keys_nodup {m : List (Nat × Nat)} {k v : Nat}
    (h : (m.map Prod.fst).Nodup) : ((setA k v m).map Prod.fst).Nodup := by
  by_cases hk : k ∈ m.map Prod.fst
  · rw [keys_setA_mem v hk]; exact h
  · rw [keys_setA_not_mem v hk]
    simp [List.nodup_append, h, hk]

theorem delA_sublist (k : Nat) : ∀ (m : List (Nat × Nat)), List.Sublist (delA k m) m := by
  intro m
  induction m with
  | nil => exact List.Sublist.refl _
  | cons kv t ih =>
    obtain ⟨k₀, v₀⟩ := kv
    by_cases e : k₀ = k
    · rw [delA, if_pos e]; exact List.sublist_cons_self _ _
    · rw [delA, if_neg e]; exact List.Sublist.cons₂ _ ih

theorem mem_delA {m : List (Nat × Nat)} {k k' v' : Nat}
    (h : (k', v') ∈ delA k m) : (k', v') ∈ m :=
  (delA_sublist k m).subset h

theorem delA_keys_nodup {m : List (Nat × Nat)} {k : Nat}
    (h : (m.map Prod.fst).Nodup) : ((delA k m).map Prod.fst).Nodup :=
  List.Nodup.sublist (List.Sublist.map _ (delA_sublist k m)) h

theorem not_mem_delA_self : ∀ {m : List (Nat × Nat)} {k : Nat},
    (m.map Prod.fst).Nodup → ∀ v, (k, v) ∉ delA k m := by
  intro m
  induction m with
  | nil => intro k _ v h; simp [delA] at h
  | cons kv t ih =>
    intro k hnd v h
    obtain ⟨k₀, v₀⟩ := kv
    by_cases e : k₀ = k
    · rw [delA, if_pos e] at h
      have hmem : k ∈ t.map Prod.fst := List.mem_map.2 ⟨(k, v), h, rfl⟩
      rw [List.map_cons, List.nodup_cons] at hnd
      exact hnd.1 (by rw [e]; exact hmem)
    · rw [delA, if_neg e] at h
      rcases List.mem_cons.1 h with h | h
      · cases h; exact e rfl
      · rw [List.map_cons, List.nodup_cons] at hnd
        exact ih hnd.2 v h

theorem lookupA_of_mem_nodup : ∀ {m : List (Nat × Nat)} {k v : Nat},
    (m.map Prod.fst).Nodup → (k, v) ∈ m → lookupA k m = some v := by
  intro m
  induction m with
  | nil => intro k v _ h; simp at h
  | cons kv t ih =>
    intro k v hnd h
    obtain ⟨k₀, v₀⟩ := kv
    rcases List.mem_cons.1 h with h | h
    · cases h
      rw [lookupA, if_pos rfl]
    · by_cases e : k₀ = k
      · exfalso
        have hmem : k ∈ t.map Prod.fst := List.mem_map.2 ⟨(k, v), h, rfl⟩
        rw [List.map_cons, List.nodup_cons] at hnd
        exact hnd.1 (by rw [e]; exact hmem)
      · rw [lookupA, if_neg e]
        rw [List.map_cons, List.nodup_cons] at hnd
        exact ih hnd.2 h

theorem lookupA_not_mem_none : ∀ {m : List (Nat × Nat)} {k : Nat},
    k ∉ m.map Prod.fst → lookupA k m = none := by
  intro m
  induction m with
  | nil => intro k _; rfl
  | cons kv t ih =>
    intro k h
    obtain ⟨k₀, v₀⟩ := kv
    have e : ¬ k₀ = k := fun e => h (by simp [e])
    rw [lookupA, if_neg e]
    exact ih (fun hk => h (by simp [hk]))

/-! ## Unfolding equations for the queue machine -/

theorem entryRun_oob {cfg : Cfg} {i : Nat} (h : nth cfg.calls i = none) :
    entryRun cfg i = cfg := by
  unfold entryRun; rw [h]

theorem entryRun_hit {cfg : Cfg} {i : Nat} {c : Call} {p : Nat}
    (h : nth cfg.calls i = some c) (hl : lookupA c.key cfg.operationQueue = some p) :
    entryRun cfg i =
      { cfg with calls := cfg.calls.set i { c with pc := .awaitExisting p } } := by
  simp only [entryRun, h, hl]

theorem entryRun_miss {cfg : Cfg} {i : Nat} {c : Call}
    (h : nth cfg.calls i = some c) (hl : lookupA c.key cfg.operationQueue = none) :
    entryRun cfg i = ceilingRun cfg i := by
  simp only [entryRun, h, hl]

theorem ceilingRun_oob {cfg : Cfg} {i : Nat} (h : nth cfg.calls i = none) :
    ceilingRun cfg i = cfg := by
  unfold ceilingRun; rw [h]

theorem ceilingRun_race {cfg : Cfg} {i : Nat} {c : Call}
    (h : nth cfg.calls i = some c)
    (hle : MAX_CONCURRENT_OPERATIONS ≤ cfg.operationQueue.length) :
    ceilingRun cfg i =
      { cfg with calls :=
          cfg.calls.set i { c with pc := .racing (cfg.operationQueue.map Prod.snd) } } := by
  simp only [ceilingRun, h]
  rw [if_pos hle]

theorem ceilingRun_start {cfg : Cfg} {i : Nat} {c : Call}
    (h : nth cfg.calls i = some c)
    (hlt : ¬ MAX_CONCURRENT_OPERATIONS ≤ cfg.operationQueue.length) :
    ceilingRun cfg i = startOp cfg i c := by
  simp only [ceilingRun, h]
  rw [if_neg hlt]

theorem resumeCall_oob {cfg : Cfg} {i : Nat} (pid : Nat) (r : QRes)
    (h : nth cfg.calls i = none) : resumeCall pid r cfg i = cfg := by
  unfold resumeCall; rw [h]

theorem resumeCall_entry {cfg : Cfg} {i : Nat} {c : Call} (pid : Nat) (r : QRes)
    (h : nth cfg.calls i = some c) (hpc : c.pc = .entry) :
    resumeCall pid r cfg i = cfg := by
  simp only [resumeCall, h, hpc]

theorem resumeCall_done {cfg : Cfg} {i : Nat} {c : Call} {r' : QRes} (pid : Nat) (r : QRes)
    (h : nth cfg.calls i = some c) (hpc : c.pc = .done r') :
    resumeCall pid r cfg i = cfg := by
  simp only [resumeCall, h, hpc]

theorem resumeCall_awaitExisting_hit_ok {cfg : Cfg} {i : Nat} {c : Call} {pid : Nat}
    (h : nth cfg.calls i = some c) (hpc : c.pc = .awaitExisting pid) :
    resumeCall pid .ok cfg i = ceilingRun cfg i := by
  simp only [resumeCall, h, hpc]
  rw [if_true]

theorem resumeCall_awaitExisting_hit_err {cfg : Cfg} {i : Nat} {c : Call} {pid e : Nat}
    (h : nth cfg.calls i = some c) (hpc : c.pc = .awaitExisting pid) :
    resumeCall pid (.err e) cfg i =
      { cfg with calls := cfg.calls.set i { c with pc := .done (.err e) } } := by
  simp only [resumeCall, h, hpc]
  rw [if_true]

theorem resumeCall_awaitExisting_miss {cfg : Cfg} {i : Nat} {c : Call} {p pid : Nat}
    (r : QRes) (h : nth cfg.calls i = some c) (hpc : c.pc = .awaitExisting p)
    (hne : ¬ p = pid) : resumeCall pid r cfg i = cfg := by
  simp only [resumeCall, h, hpc]
  rw [if_neg hne]

theorem resumeCall_racing_hit_ok {cfg : Cfg} {i : Nat} {c : Call} {ps : List Nat} {pid : Nat}
    (h : nth cfg.calls i = some c) (hpc : c.pc = .racing ps) (hin : pid ∈ ps) :
    resumeCall pid .ok cfg i = ceilingRun cfg i := by
  simp only [resumeCall, h, hpc]
  rw [if_pos hin]

theorem resumeCall_racing_hit_err {cfg : Cfg} {i : Nat} {c : Call} {ps : List Nat} {pid e : Nat}
    (h : nth cfg.calls i = some c) (hpc : c.pc = .racing ps) (hin : pid ∈ ps) :
    resumeCall pid (.err e) cfg i =
      { cfg with calls := cfg.calls.set i { c with pc := .done (.err e) } } := by
  simp only [resumeCall, h, hpc]
  rw [if_pos hin]

theorem resumeCall_racing_miss {cfg : Cfg} {i : Nat} {c : Call} {ps : List Nat} {pid : Nat}
    (r : QRes) (h : nth cfg.calls i = some c) (hpc : c.pc = .racing ps) (hin : pid ∉ ps) :
    resumeCall pid r cfg i = cfg := by
  simp only [resumeCall, h, hpc]
  rw [if_neg hin]

theorem resumeCall_awaitOwn_hit {cfg : Cfg} {i : Nat} {c : Call} {pid : Nat} (r : QRes)
    (h : nth cfg.calls i = some c) (hpc : c.pc = .awaitOwn pid) :
    resumeCall pid r cfg i =
      { cfg with calls := cfg.calls.set i { c with pc := .done r } } := by
  simp only [resumeCall, h, hpc]
  rw [if_true]

theorem resumeCall_awaitOwn_miss {cfg : Cfg} {i : Nat} {c : Call} {p pid : Nat} (r : QRes)
    (h : nth cfg.calls i = some c) (hpc : c.pc = .awaitOwn p) (hne : ¬ p = pid) :
    resumeCall pid r cfg i = cfg := by
  simp only [resumeCall, h, hpc]
  rw [if_neg hne]

theorem settle_oob {cfg : Cfg} {pid : Nat} (r : QRes) (h : nth cfg.ops pid = none) :
    settle cfg pid r = cfg := by
  unfold settle; rw [h]

theorem settle_dead {cfg : Cfg} {pid : Nat} {op : Op} (r : QRes)
    (h : nth cfg.ops pid = some op) (ha : ¬ op.alive = true) :
    settle cfg pid r = cfg := by
  simp only [settle, h]
  rw [if_neg ha]

theorem settle_alive {cfg : Cfg} {pid : Nat} {op : Op} (r : QRes)
    (h : nth cfg.ops pid = some op) (ha : op.alive = true) :
    settle cfg pid r =
      cascade pid r
        { cfg with ops := cfg.ops.set pid { op with alive := false },
                   operationQueue := delA op.key cfg.operationQueue }
        cfg.calls.length := by
  simp only [settle, h]
  rw [if_pos ha]

theorem stepQ_empty {cfg : Cfg} (ch : Nat × QRes) (h : (runningPids cfg).length = 0) :
    stepQ cfg ch = cfg := by
  unfold stepQ; rw [if_pos h]

theorem stepQ_go {cfg : Cfg} (ch : Nat × QRes) (h : ¬ (runningPids cfg).length = 0) :
    stepQ cfg ch =
      settle cfg ((runningPids cfg).getD (ch.1 % (runningPids cfg).length) 0) ch.2 := by
  unfold stepQ; rw [if_neg h]

theorem runQ_cons (cfg : Cfg) (ch : Nat × QRes) (t : List (Nat × QRes)) :
    runQ cfg (ch :: t) = runQ (stepQ cfg ch) t := rfl

/-! ## The pending-map invariant `Inv1` is preserved by every machine step -/

theorem inv1_calls_only {cfg : Cfg} (h : Inv1 cfg) (cs : List Call) :
    Inv1 { cfg with calls := cs } :=
  ⟨h.map_valid, h.map_keys_nodup⟩

theorem inv1_startOp {cfg : Cfg} (h : Inv1 cfg) (i : Nat) (c : Call) :
    Inv1 (startOp cfg i c) := by
  constructor
  · intro k p hm
    simp only [startOp] at hm ⊢
    rcases mem_setA hm with ⟨rfl, rfl⟩ | hm'
    · exact ⟨⟨c.key, i, true⟩, nth_append_self _ _, rfl, rfl⟩
    · rcases h.map_valid k p hm' with ⟨o, ho, hk, ha⟩
      refine ⟨o, ?_, hk, ha⟩
      rw [nth_append_left _ (nth_lt_length ho)]
      exact ho
  · simp only [startOp]
    exact setA_keys_nodup h.map_keys_nodup

theorem inv1_ceilingRun {cfg : Cfg} (h : Inv1 cfg) (i : Nat) :
    Inv1 (ceilingRun cfg i) := by
  cases hn : nth cfg.calls i with
  | none => rw [ceilingRun_oob hn]; exact h
  | some c =>
    by_cases hle : MAX_CONCURRENT_OPERATIONS ≤ cfg.operationQueue.length
    · rw [ceilingRun_race hn hle]; exact inv1_calls_only h _
    · rw [ceilingRun_start hn hle]; exact inv1_startOp h i c

theorem inv1_entryRun {cfg : Cfg} (h : Inv1 cfg) (i : Nat) :
    Inv1 (entryRun cfg i) := by
  cases hn : nth cfg.calls i with
  | none => rw [entryRun_oob hn]; exact h
  | some c =>
    cases hl : lookupA c.key cfg.operationQueue with
    | some p => rw [entryRun_hit hn hl]; exact inv1_calls_only h _
    | none => rw [entryRun_miss hn hl]; exact inv1_ceilingRun h i

theorem inv1_resumeCall {cfg : Cfg} (h : Inv1 cfg) (pid : Nat) (r : QRes) (i : Nat) :
    Inv1 (resumeCall pid r cfg i) := by
  cases hn : nth cfg.calls i with
  | none => rw [resumeCall_oob pid r hn]; exact h
  | some c =>
    cases hpc : c.pc with
    | entry => rw [resumeCall_entry pid r hn hpc]; exact h
    | awaitExisting p =>
      by_cases hp : p = pid
      · subst hp
        cases r with
        | ok => rw [resumeCall_awaitExisting_hit_ok hn hpc]; exact inv1_ceilingRun h i
        | err e => rw [resumeCall_awaitExisting_hit_err hn hpc]; exact inv1_calls_only h _
      · rw [resumeCall_awaitExisting_miss r hn hpc hp]; exact h
    | racing ps =>
      by_cases hp : pid ∈ ps
      · cases r with
        | ok => rw [resumeCall_racing_hit_ok hn hpc hp]; exact inv1_ceilingRun h i
        | err e => rw [resumeCall_racing_hit_err hn hpc hp]; exact inv1_calls_only h _
      · rw [resumeCall_racing_miss r hn hpc hp]; exact h
    | awaitOwn p =>
      by_cases hp : p = pid
      · subst hp
        rw [resumeCall_awaitOwn_hit r hn hpc]; exact inv1_calls_only h _
      · rw [resumeCall_awaitOwn_miss r hn hpc hp]; exact h
    | done r' => rw [resumeCall_done pid r hn hpc]; exact h

theorem inv1_cascade {cfg : Cfg} (h : Inv1 cfg) (pid : Nat) (r : QRes) :
    ∀ n : Nat, Inv1 (cascade pid r cfg n) := by
  intro n
  induction n with
  | zero => exact h
  | succ m ih => exact inv1_resumeCall ih pid r m

theorem inv1_settle {cfg : Cfg} (h : Inv1 cfg) (pid : Nat) (r : QRes) :
    Inv1 (settle cfg pid r) := by
  cases hn : nth cfg.ops pid with
  | none => rw [settle_oob r hn]; exact h
  | some op =>
    by_cases ha : op.alive = true
    · rw [settle_alive r hn ha]
      apply inv1_cascade
      constructor
      · intro k p hm
        have hm' := mem_delA hm
        rcases h.map_valid k p hm' with ⟨o, ho, hk, hal⟩
        have hpne : p ≠ pid := by
          rintro rfl
          rw [ho] at hn
          cases hn
          exact not_mem_delA_self h.map_keys_nodup p (hk ▸ hm)
        refine ⟨o, ?_, hk, hal⟩
        rw [nth_set_ne _ pid p _ (Ne.symm hpne)]
        exact ho
      · exact delA_keys_nodup h.map_keys_nodup
    · rw [settle_dead r hn ha]
      exact h

theorem inv1_stepQ {cfg : Cfg} (h : Inv1 cfg) (ch : Nat × QRes) :
    Inv1 (stepQ cfg ch) := by
  by_cases hz : (runningPids cfg).length = 0
  · rw [stepQ_empty ch hz]; exact h
  · rw [stepQ_go ch hz]; exact inv1_settle h _ _

theorem inv1_runQ {cfg : Cfg} (h : Inv1 cfg) :
    ∀ sched : List (Nat × QRes), Inv1 (runQ cfg sched) := by
  intro sched
  induction sched generalizing cfg with
  | nil => exact h
  | cons ch t ih => exact ih (inv1_stepQ h ch)

theorem inv1_initCfg (keys : List Nat) : Inv1 (initCfg keys) := by
  have h0 : Inv1 (⟨[], [], []⟩ : Cfg) := by
    constructor
    · intro k p hm; simp at hm
    · simp
  unfold initCfg
  generalize hc : (⟨[], [], []⟩ : Cfg) = cfg0
  rw [hc] at h0
  clear hc
  induction keys generalizing cfg0 with
  | nil => exact h0
  | cons k t ih =>
    apply ih
    exact inv1_entryRun (inv1_calls_only h0 _) _

/-! ## Claim C1 — per-key mutual exclusion of the operation queue (corrected) -/

/-- C1 counterexample: three `unlink` events for the same key arrive while the
first operation is in flight; when that operation settles, both waiting calls
resume from `await existing`, re-check only the concurrency ceiling (the
per-key lookup is not re-done), and both start their operations.  Two
operations for key 0 are then in flight concurrently — the third call's
operation began before the second call's operation had completed, refuting
the claim for "two or more" enqueued operations. -/
theorem c1_counterexample :
    aliveForKey (runQ (initCfg [0, 0, 0]) [(0, .ok)]) 0 = 2 ∧
    nth (runQ (initCfg [0, 0, 0]) [(0, .ok)]).calls 1 = some ⟨0, .awaitOwn 1, true⟩ ∧
    nth (runQ (initCfg [0, 0, 0]) [(0, .ok)]).calls 2 = some ⟨0, .awaitOwn 2, true⟩ ∧
    nth (runQ (initCfg [0, 0, 0]) [(0, .ok)]).ops 1 = some ⟨0, 1, true⟩ ∧
    nth (runQ (initCfg [0, 0, 0]) [(0, .ok)]).ops 2 = some ⟨0, 2, true⟩ := by
  decide

theorem initCfg_pair : initCfg [0, 0] = qcfgA := by decide

theorem stepQ_qcfgA (c : Nat) (r : QRes) :
    stepQ qcfgA (c, r) = (match r with | .ok => qcfgB | .err e => qcfgE e) := by
  have hR : runningPids qcfgA = [0] := rfl
  have hs : stepQ qcfgA (c, r) = settle qcfgA 0 r := by
    unfold stepQ
    rw [hR]
    simp [Nat.mod_one]
  rw [hs]
  cases r with
  | ok => rfl
  | err e => rfl

theorem stepQ_qcfgB (c : Nat) (r : QRes) : stepQ qcfgB (c, r) = qcfgC r := by
  have hR : runningPids qcfgB = [1] := rfl
  have hs : stepQ qcfgB (c, r) = settle qcfgB 1 r := by
    unfold stepQ
    rw [hR]
    simp [Nat.mod_one]
  rw [hs]
  rfl

theorem stepQ_qcfgE (e : Nat) (ch : Nat × QRes) : stepQ (qcfgE e) ch = qcfgE e := by
  have hR : runningPids (qcfgE e) = [] := rfl
  unfold stepQ
  rw [hR]
  simp

theorem stepQ_qcfgC (r : QRes) (ch : Nat × QRes) : stepQ (qcfgC r) ch = qcfgC r := by
  have hR : runningPids (qcfgC r) = [] := rfl
  unfold stepQ
  rw [hR]
  simp

theorem pair2_inv_runQ : ∀ (sched : List (Nat × QRes)) (cfg : Cfg),
    Pair2Inv cfg → Pair2Inv (runQ cfg sched) := by
  intro sched
  induction sched with
  | nil => intro cfg h; exact h
  | cons ch t ih =>
    intro cfg h
    obtain ⟨c, r⟩ := ch
    show Pair2Inv (runQ (stepQ cfg (c, r)) t)
    apply ih
    rcases h with rfl | rfl | ⟨e, rfl⟩ | ⟨r', rfl⟩
    · rw [stepQ_qcfgA c r]
      cases r with
      | ok => exact Or.inr (Or.inl rfl)
      | err e => exact Or.inr (Or.inr (Or.inl ⟨e, rfl⟩))
    · rw [stepQ_qcfgB c r]
      exact Or.inr (Or.inr (Or.inr ⟨r, rfl⟩))
    · rw [stepQ_qcfgE e (c, r)]
      exact Or.inr (Or.inr (Or.inl ⟨e, rfl⟩))
    · rw [stepQ_qcfgC r' (c, r)]
      exact Or.inr (Or.inr (Or.inr ⟨r', rfl⟩))

/-- C1 (amended): (1) for every key `k`, every burst of enqueues and every
schedule, once every operation for `k` has settled the pending map no longer
contains `k` — this half of the claim holds for any number of enqueues,
because each operation's `finally` removes the key; (2) the per-key mutual
exclusion holds as the spec's §8 wording states it, for *two* operations
enqueued for a key (below the concurrency ceiling): the second never begins
(never starts its operation) before the first has fully completed.  With
three or more enqueues for one key the exclusion fails (`c1_counterexample`):
a call resumed from `await existing` re-checks only the global ceiling, not
the per-key map. -/
theorem c1_amended :
    (∀ (keys : List Nat) (sched : List (Nat × QRes)) (k : Nat),
      (∀ o ∈ (runQ (initCfg keys) sched).ops, o.key = k → o.alive = false) →
      lookupA k (runQ (initCfg keys) sched).operationQueue = none) ∧
    (∀ (sched : List (Nat × QRes)) (c' : Call),
      nth (runQ (initCfg [0, 0]) sched).calls 1 = some c' →
      c'.started = true →
      ∀ o, nth (runQ (initCfg [0, 0]) sched).ops 0 = some o → o.alive = false) := by
  constructor
  · intro keys sched k hdead
    cases hl : lookupA k (runQ (initCfg keys) sched).operationQueue with
    | none => rfl
    | some v =>
      exfalso
      have hmem := lookupA_mem hl
      rcases (inv1_runQ (inv1_initCfg keys) sched).map_valid k v hmem with ⟨o, ho, hk, ha⟩
      have hf := hdead o (nth_mem ho) hk
      rw [hf] at ha
      cases ha
  · intro sched c' hc hs o ho
    have hp := pair2_inv_runQ sched (initCfg [0, 0]) (by rw [initCfg_pair]; exact Or.inl rfl)
    rcases hp with hA | hB | ⟨e, hE⟩ | ⟨r, hC⟩
    · rw [hA] at hc
      rw [show nth qcfgA.calls 1 = some ⟨0, .awaitExisting 0, false⟩ from rfl] at hc
      cases hc
      cases hs
    · rw [hB] at ho
      rw [show nth qcfgB.ops 0 = some ⟨0, 0, false⟩ from rfl] at ho
      cases ho
      rfl
    · rw [hE] at ho
      rw [show nth (qcfgE e).ops 0 = some ⟨0, 0, false⟩ from rfl] at ho
      cases ho
      rfl
    · rw [hC] at ho
      rw [show nth (qcfgC r).ops 0 = some ⟨0, 0, false⟩ from rfl] at ho
      cases ho
      rfl

/-- Witness for C1's amended theorem: a concrete two-enqueue run for key 0. -/
theorem c1_amended_witness :
    lookupA 0 (runQ (initCfg [0, 0]) [(0, .ok), (0, .ok)]).operationQueue = none ∧
    (⟨0, 0, false⟩ : Op).alive = false :=
  ⟨c1_amended.1 [0, 0] [(0, .ok), (0, .ok)] 0 (by decide),
   c1_amended.2 [(0, .ok)] ⟨0, .awaitOwn 1, true⟩ (by decide) rfl ⟨0, 0, false⟩ (by decide)⟩

/-! ## Claim C9 — a failed operation rejects later same-key enqueues -/

theorem nth_append_single_cases {α : Type} {l : List α} {a x : α} {q : Nat}
    (h : nth (l ++ [a]) q = some x) :
    nth l q = some x ∨ (q = l.length ∧ x = a) := by
  by_cases hq : q < l.length
  · left; rw [nth_append_left _ hq] at h; exact h
  · right
    have hq' : l.length ≤ q := by omega
    rw [nth_append_ge _ hq'] at h
    rcases hd : q - l.length with _ | m
    · rw [hd] at h
      cases h
      exact ⟨by omega, rfl⟩
    · rw [hd] at h
      simp [nth] at h

theorem ceilingRun_calls_ne {cfg : Cfg} (i j : Nat) (hne : j ≠ i) :
    nth (ceilingRun cfg i).calls j = nth cfg.calls j := by
  cases hn : nth cfg.calls i with
  | none => rw [ceilingRun_oob hn]
  | some c =>
    by_cases hle : MAX_CONCURRENT_OPERATIONS ≤ cfg.operationQueue.length
    · rw [ceilingRun_race hn hle]
      exact nth_set_ne _ i j _ (Ne.symm hne)
    · rw [ceilingRun_start hn hle]
      simp only [startOp]
      exact nth_set_ne _ i j _ (Ne.symm hne)

theorem resumeCall_calls_ne {cfg : Cfg} (pid : Nat) (r : QRes) (i j : Nat) (hne : j ≠ i) :
    nth (resumeCall pid r cfg i).calls j = nth cfg.calls j := by
  cases hn : nth cfg.calls i with
  | none => rw [resumeCall_oob pid r hn]
  | some c =>
    cases hpc : c.pc with
    | entry => rw [resumeCall_entry pid r hn hpc]
    | done r' => rw [resumeCall_done pid r hn hpc]
    | awaitExisting p =>
      by_cases hp : p = pid
      · subst hp
        cases r with
        | ok =>
          rw [resumeCall_awaitExisting_hit_ok hn hpc]
          exact ceilingRun_calls_ne i j hne
        | err e =>
          rw [resumeCall_awaitExisting_hit_err hn hpc]
          exact nth_set_ne _ i j _ (Ne.symm hne)
      · rw [resumeCall_awaitExisting_miss r hn hpc hp]
    | racing ps =>
      by_cases hp : pid ∈ ps
      · cases r with
        | ok =>
          rw [resumeCall_racing_hit_ok hn hpc hp]
          exact ceilingRun_calls_ne i j hne
        | err e =>
          rw [resumeCall_racing_hit_err hn hpc hp]
          exact nth_set_ne _ i j _ (Ne.symm hne)
      · rw [resumeCall_racing_miss r hn hpc hp]
    | awaitOwn p =>
      by_cases hp : p = pid
      · subst hp
        rw [resumeCall_awaitOwn_hit r hn hpc]
        exact nth_set_ne _ i j _ (Ne.symm hne)
      · rw [resumeCall_awaitOwn_miss r hn hpc hp]

theorem ceilingRun_ops_cases {cfg : Cfg} (i q : Nat) (oq : Op) :
    nth (ceilingRun cfg i).ops q = some oq → nth cfg.ops q = some oq ∨ oq.owner = i := by
  cases hn : nth cfg.calls i with
  | none => rw [ceilingRun_oob hn]; exact Or.inl
  | some c =>
    by_cases hle : MAX_CONCURRENT_OPERATIONS ≤ cfg.operationQueue.length
    · rw [ceilingRun_race hn hle]
      exact fun h => Or.inl h
    · rw [ceilingRun_start hn hle]
      intro h
      simp only [startOp] at h
      rcases nth_append_single_cases h with h | ⟨_, rfl⟩
      · exact Or.inl h
      · exact Or.inr rfl

theorem resumeCall_ops_cases {cfg : Cfg} (pid : Nat) (r : QRes) (i q : Nat) (oq : Op) :
    nth (resumeCall pid r cfg i).ops q = some oq →
      nth cfg.ops q = some oq ∨ oq.owner = i := by
  cases hn : nth cfg.calls i with
  | none => rw [resumeCall_oob pid r hn]; exact Or.inl
  | some c =>
    cases hpc : c.pc with
    | entry => rw [resumeCall_entry pid r hn hpc]; exact Or.inl
    | done r' => rw [resumeCall_done pid r hn hpc]; exact Or.inl
    | awaitExisting p =>
      by_cases hp : p = pid
      · subst hp
        cases r with
        | ok =>
          rw [resumeCall_awaitExisting_hit_ok hn hpc]
          exact ceilingRun_ops_cases i q oq
        | err e =>
          rw [resumeCall_awaitExisting_hit_err hn hpc]
          exact fun h => Or.inl h
      · rw [resumeCall_awaitExisting_miss r hn hpc hp]; exact Or.inl
    | racing ps =>
      by_cases hp : pid ∈ ps
      · cases r with
        | ok =>
          rw [resumeCall_racing_hit_ok hn hpc hp]
          exact ceilingRun_ops_cases i q oq
        | err e =>
          rw [resumeCall_racing_hit_err hn hpc hp]
          exact fun h => Or.inl h
      · rw [resumeCall_racing_miss r hn hpc hp]; exact Or.inl
    | awaitOwn p =>
      by_cases hp : p = pid
      · subst hp
        rw [resumeCall_awaitOwn_hit r hn hpc]
        exact fun h => Or.inl h
      · rw [resumeCall_awaitOwn_miss r hn hpc hp]; exact Or.inl

theorem c9_pres_resume {cfg : Cfg} {j : Nat} {c : Call} {r₀ : QRes}
    (hc : nth cfg.calls j = some c) (hdone : c.pc = .done r₀) (hno : NoOwner cfg j)
    (pid : Nat) (r : QRes) (i : Nat) :
    nth (resumeCall pid r cfg i).calls j = some c ∧ NoOwner (resumeCall pid r cfg i) j := by
  by_cases hij : i = j
  · subst hij
    rw [resumeCall_done pid r hc hdone]
    exact ⟨hc, hno⟩
  · constructor
    · rw [resumeCall_calls_ne pid r i j (Ne.symm hij)]
      exact hc
    · intro q oq hq
      rcases resumeCall_ops_cases pid r i q oq hq with h | h
      · exact hno q oq h
      · rw [h]; exact hij

theorem c9_pres_cascade {cfg : Cfg} {j : Nat} {c : Call} {r₀ : QRes}
    (hc : nth cfg.calls j = some c) (hdone : c.pc = .done r₀) (hno : NoOwner cfg j)
    (pid : Nat) (r : QRes) :
    ∀ n : Nat,
      nth (cascade pid r cfg n).calls j = some c ∧ NoOwner (cascade pid r cfg n) j := by
  intro n
  induction n with
  | zero => exact ⟨hc, hno⟩
  | succ m ih => exact c9_pres_resume ih.1 hdone ih.2 pid r m

theorem c9_pres_settle {cfg : Cfg} {j : Nat} {c : Call} {r₀ : QRes}
    (hc : nth cfg.calls j = some c) (hdone : c.pc = .done r₀) (hno : NoOwner cfg j)
    (pid : Nat) (r : QRes) :
    nth (settle cfg pid r).calls j = some c ∧ NoOwner (settle cfg pid r) j := by
  cases hn : nth cfg.ops pid with
  | none => rw [settle_oob r hn]; exact ⟨hc, hno⟩
  | some op =>
    by_cases ha : op.alive = true
    · rw [settle_alive r hn ha]
      have hno1 : NoOwner
          { cfg with ops := cfg.ops.set pid { op with alive := false },
                     operationQueue := delA op.key cfg.operationQueue } j := by
        intro q oq hq
        rcases nth_set_cases (l := cfg.ops) (i := pid) (j := q)
            (b := { op with alive := false }) with heq | ⟨rfl, heq⟩
        · rw [heq] at hq
          exact hno q oq hq
        · rw [heq] at hq
          cases hq
          exact hno pid op hn
      refine c9_pres_cascade ?_ hdone hno1 pid r _
      exact hc
    · rw [settle_dead r hn ha]; exact ⟨hc, hno⟩

theorem c9_pres_stepQ {cfg : Cfg} {j : Nat} {c : Call} {r₀ : QRes}
    (hc : nth cfg.calls j = some c) (hdone : c.pc = .done r₀) (hno : NoOwner cfg j)
    (ch : Nat × QRes) :
    nth (stepQ cfg ch).calls j = some c ∧ NoOwner (stepQ cfg ch) j := by
  by_cases hz : (runningPids cfg).length = 0
  · rw [stepQ_empty ch hz]; exact ⟨hc, hno⟩
  · rw [stepQ_go ch hz]; exact c9_pres_settle hc hdone hno _ _

theorem c9_pres_runQ {cfg : Cfg} {j : Nat} {c : Call} {r₀ : QRes}
    (hc : nth cfg.calls j = some c) (hdone : c.pc = .done r₀) (hno : NoOwner cfg j) :
    ∀ sched : List (Nat × QRes),
      nth (runQ cfg sched).calls j = some c ∧ NoOwner (runQ cfg sched) j := by
  intro sched
  induction sched generalizing cfg with
  | nil => exact ⟨hc, hno⟩
  | cons ch t ih =>
    have h1 := c9_pres_stepQ hc hdone hno ch
    exact ih h1.1 h1.2

theorem resumeCall_err_ops {cfg : Cfg} (pid e : Nat) (i : Nat) :
    (resumeCall pid (.err e) cfg i).ops = cfg.ops := by
  cases hn : nth cfg.calls i with
  | none => rw [resumeCall_oob pid (.err e) hn]
  | some c =>
    cases hpc : c.pc with
    | entry => rw [resumeCall_entry pid (.err e) hn hpc]
    | done r' => rw [resumeCall_done pid (.err e) hn hpc]
    | awaitExisting p =>
      by_cases hp : p = pid
      · subst hp; rw [resumeCall_awaitExisting_hit_err hn hpc]
      · rw [resumeCall_awaitExisting_miss (.err e) hn hpc hp]
    | racing ps =>
      by_cases hp : pid ∈ ps
      · rw [resumeCall_racing_hit_err hn hpc hp]
      · rw [resumeCall_racing_miss (.err e) hn hpc hp]
    | awaitOwn p =>
      by_cases hp : p = pid
      · subst hp; rw [resumeCall_awaitOwn_hit (.err e) hn hpc]
      · rw [resumeCall_awaitOwn_miss (.err e) hn hpc hp]

theorem cascade_err_ops {cfg : Cfg} (pid e : Nat) :
    ∀ n : Nat, (cascade pid (.err e) cfg n).ops = cfg.ops := by
  intro n
  induction n with
  | zero => rfl
  | succ m ih =>
    show (resumeCall pid (.err e) (cascade pid (.err e) cfg m) m).ops = cfg.ops
    rw [resumeCall_err_ops pid e m, ih]

theorem cascade_calls_ge {cfg : Cfg} (pid : Nat) (r : QRes) :
    ∀ (n j : Nat), n ≤ j → nth (cascade pid r cfg n).calls j = nth cfg.calls j := by
  intro n
  induction n with
  | zero => intro j _; rfl
  | succ m ih =>
    intro j hj
    show nth (resumeCall pid r (cascade pid r cfg m) m).calls j = _
    rw [resumeCall_calls_ne pid r m j (by omega)]
    exact ih j (by omega)

theorem cascade_err_awaitExisting {cfg : Cfg} (pid e : Nat) :
    ∀ (n j : Nat) (c : Call), j < n → nth cfg.calls j = some c →
      c.pc = .awaitExisting pid →
      nth (cascade pid (.err e) cfg n).calls j = some { c with pc := .done (.err e) } := by
  intro n
  induction n with
  | zero => intro j c hj _ _; exact absurd hj (by omega)
  | succ m ih =>
    intro j c hj hc hpc
    show nth (resumeCall pid (.err e) (cascade pid (.err e) cfg m) m).calls j = _
    by_cases hjm : j = m
    · subst hjm
      have hc' : nth (cascade pid (.err e) cfg j).calls j = some c :=
        (cascade_calls_ge pid (.err e) j j (Nat.le_refl j)).trans hc
      rw [resumeCall_awaitExisting_hit_err hc' hpc]
      exact nth_set_self _ hc'
    · rw [resumeCall_calls_ne pid (.err e) m j hjm]
      exact ih j c (by omega) hc hpc

/-- C9: if the in-flight operation `op` for a key fails with error `e`, then
any call suspended on it via `await existing` completes with that same error
without ever starting its own operation — `await existing` is not
error-isolated — and at every later point of the run that call is still
rejected with `e` and still owns no operation (its `operation()` is never
executed). -/
theorem c9_error_propagation (cfg : Cfg) (j p : Nat) (c : Call) (op : Op)
    (e : Nat) (sched : List (Nat × QRes))
    (hc : nth cfg.calls j = some c)
    (hpc : c.pc = .awaitExisting p)
    (hop : nth cfg.ops p = some op)
    (halive : op.alive = true)
    (hno : NoOwner cfg j) :
    nth (runQ (settle cfg p (.err e)) sched).calls j =
      some { c with pc := .done (.err e) } ∧
    NoOwner (runQ (settle cfg p (.err e)) sched) j := by
  have hstep : nth (settle cfg p (.err e)).calls j = some { c with pc := .done (.err e) } ∧
      NoOwner (settle cfg p (.err e)) j := by
    rw [settle_alive (.err e) hop halive]
    constructor
    · exact cascade_err_awaitExisting p e _ j c (nth_lt_length hc) hc hpc
    · intro q oq hq
      rw [cascade_err_ops p e _] at hq
      rcases nth_set_cases (l := cfg.ops) (i := p) (j := q)
          (b := { op with alive := false }) with heq | ⟨rfl, heq⟩
      · rw [heq] at hq
        exact hno q oq hq
      · rw [heq] at hq
        cases hq
        exact hno p op hop
  exact c9_pres_runQ hstep.1 rfl hstep.2 sched

/-- Witness for C9: two enqueues for key 0; the first operation fails with
error 7; the second call completes with error 7, its `started` flag still
false, and it owns no operation, also after a further (no-op) schedule step. -/
theorem c9_error_propagation_witness :
    nth (runQ (settle (initCfg [0, 0]) 0 (.err 7)) [(0, .ok)]).calls 1 =
      some ⟨0, .done (.err 7), false⟩ ∧
    NoOwner (runQ (settle (initCfg [0, 0]) 0 (.err 7)) [(0, .ok)]) 1 :=
  c9_error_propagation (initCfg [0, 0]) 1 0 ⟨0, .awaitExisting 0, false⟩ ⟨0, 0, true⟩ 7
    [(0, .ok)] (by decide) rfl (by decide) rfl
    (by
      have hops : (initCfg [0, 0]).ops = [⟨0, 0, true⟩] := rfl
      intro q oq h
      rw [hops] at h
      cases q with
      | zero => cases h; decide
      | succ m => exact Option.noConfusion h)

/-! ## Claim C5 — counting and association-list groundwork -/

theorem nodup_nth_inj {α : Type} : ∀ {l : List α} {i j : Nat} {a : α},
    l.Nodup → nth l i = some a → nth l j = some a → i = j := by
  intro l
  induction l with
  | nil => intro i j a _ hi; simp [nth] at hi
  | cons x t ih =>
    intro i j a hnd hi hj
    rw [List.nodup_cons] at hnd
    cases i with
    | zero =>
      cases hi
      cases j with
      | zero => rfl
      | succ m =>
        have hj' : nth t m = some x := hj
        exact absurd (nth_mem hj') hnd.1
    | succ n =>
      cases j with
      | zero =>
        cases hj
        have hi' : nth t n = some x := hi
        exact absurd (nth_mem hi') hnd.1
      | succ m => exact congrArg Nat.succ (ih hnd.2 hi hj)

theorem lookupA_setA_self (k v : Nat) : ∀ (m : List (Nat × Nat)),
    lookupA k (setA k v m) = some v := by
  intro m
  induction m with
  | nil => simp [setA, lookupA]
  | cons kv t ih =>
    obtain ⟨k₀, v₀⟩ := kv
    by_cases e : k₀ = k
    · rw [setA, if_pos e, lookupA, if_pos rfl]
    · rw [setA, if_neg e, lookupA, if_neg e]
      exact ih

theorem lookupA_setA_ne {k' k : Nat} (v : Nat) (hne : k' ≠ k) :
    ∀ (m : List (Nat × Nat)), lookupA k' (setA k v m) = lookupA k' m := by
  intro m
  induction m with
  | nil =>
    show lookupA k' [(k, v)] = none
    rw [show lookupA k' [(k, v)] = if k = k' then some v else lookupA k' [] from rfl,
      if_neg (show ¬ k = k' by omega)]
    rfl
  | cons kv t ih =>
    obtain ⟨k₀, v₀⟩ := kv
    by_cases e : k₀ = k
    · rw [setA, if_pos e, lookupA, if_neg (by omega), lookupA, if_neg (by omega)]
    · rw [setA, if_neg e, lookupA, lookupA]
      by_cases e' : k₀ = k'
      · rw [if_pos e', if_pos e']
      · rw [if_neg e', if_neg e']
        exact ih

theorem lookupA_delA_ne {k' k : Nat} (hne : k' ≠ k) :
    ∀ (m : List (Nat × Nat)), (m.map Prod.fst).Nodup →
      lookupA k' (delA k m) = lookupA k' m := by
  intro m
  induction m with
  | nil => intro _; rfl
  | cons kv t ih =>
    intro hnd
    obtain ⟨k₀, v₀⟩ := kv
    rw [List.map_cons, List.nodup_cons] at hnd
    by_cases e : k₀ = k
    · rw [delA, if_pos e, lookupA, if_neg (show ¬ k₀ = k' by omega)]
    · rw [delA, if_neg e, lookupA, lookupA]
      by_cases e' : k₀ = k'
      · rw [if_pos e', if_pos e']
      · rw [if_neg e', if_neg e']
        exact ih hnd.2

theorem setA_eq_append {k : Nat} (v : Nat) : ∀ {m : List (Nat × Nat)},
    k ∉ m.map Prod.fst → setA k v m = m ++ [(k, v)] := by
  intro m
  induction m with
  | nil => intro _; rfl
  | cons kv t ih =>
    intro h
    obtain ⟨k₀, v₀⟩ := kv
    have e : ¬ k₀ = k := fun e => h (by simp [e])
    rw [setA, if_neg e, List.cons_append]
    rw [ih (fun hm => h (by simp [hm]))]

theorem length_delA_mem {k : Nat} : ∀ {m : List (Nat × Nat)},
    k ∈ m.map Prod.fst → (delA k m).length + 1 = m.length := by
  intro m
  induction m with
  | nil => intro h; simp at h
  | cons kv t ih =>
    intro h
    obtain ⟨k₀, v₀⟩ := kv
    by_cases e : k₀ = k
    · rw [delA, if_pos e]; rfl
    · have ht : k ∈ t.map Prod.fst := by
        rcases List.mem_cons.1 h with h | h
        · exact absurd h.symm e
        · exact h
      rw [delA, if_neg e, List.length_cons, List.length_cons, ih ht]

theorem countP_set_flip {α : Type} (p : α → Bool) :
    ∀ {l : List α} {i : Nat} {a : α} (b : α), nth l i = some a →
      (l.set i b).countP p + (if p a then 1 else 0) =
        l.countP p + (if p b then 1 else 0) := by
  intro l
  induction l with
  | nil => intro i a b h; simp [nth] at h
  | cons x t ih =>
    intro i a b h
    cases i with
    | zero =>
      cases h
      simp only [List.set, List.countP_cons]
      omega
    | succ n =>
      simp only [List.set, List.countP_cons]
      have := ih b (show nth t n = some a from h)
      omega

theorem set_append_last {α : Type} (a b : α) : ∀ (l : List α),
    (l ++ [a]).set l.length b = l ++ [b] := by
  intro l
  induction l with
  | nil => rfl
  | cons x t ih => simp [List.set, ih]

theorem getD_mem_nth {α : Type} : ∀ {l : List α} {i : Nat} (d : α),
    i < l.length → l.getD i d ∈ l := by
  intro l
  induction l with
  | nil => intro i d h; simp at h
  | cons x t ih =>
    intro i d h
    cases i with
    | zero => simp [List.getD]
    | succ n =>
      simp only [List.getD_cons_succ]
      exact List.mem_cons_of_mem _ (ih d (by simpa using h))

theorem countP_le_nth {α : Type} (p : α → Bool) : ∀ {l₁ l₂ : List α},
    l₁.length = l₂.length →
    (∀ j a b, nth l₁ j = some a → nth l₂ j = some b → p a = true → p b = true) →
    l₁.countP p ≤ l₂.countP p := by
  intro l₁
  induction l₁ with
  | nil => intro l₂ _ _; simp
  | cons x t ih =>
    intro l₂ hlen hmono
    cases l₂ with
    | nil => simp at hlen
    | cons y t₂ =>
      have hxy : p x = true → p y = true := hmono 0 x y rfl rfl
      have ht : t.countP p ≤ t₂.countP p :=
        ih (by simpa using hlen)
          (fun j a b ha hb => hmono (j + 1) a b ha hb)
      simp only [List.countP_cons]
      by_cases hx : p x = true
      · rw [if_pos hx, if_pos (hxy hx)]; omega
      · rw [if_neg hx]
        have : (if p y = true then 1 else 0) ≥ 0 := by omega
        omega

theorem countP_lt_nth {α : Type} (p : α → Bool) : ∀ {l₁ l₂ : List α},
    l₁.length = l₂.length →
    (∀ j a b, nth l₁ j = some a → nth l₂ j = some b → p a = true → p b = true) →
    (∃ j a b, nth l₁ j = some a ∧ nth l₂ j = some b ∧ p a = false ∧ p b = true) →
    l₁.countP p < l₂.countP p := by
  intro l₁
  induction l₁ with
  | nil =>
    intro l₂ _ _ hex
    rcases hex with ⟨j, a, b, ha, _⟩
    simp [nth] at ha
  | cons x t ih =>
    intro l₂ hlen hmono hex
    cases l₂ with
    | nil => simp at hlen
    | cons y t₂ =>
      have hxy : p x = true → p y = true := hmono 0 x y rfl rfl
      simp only [List.countP_cons]
      rcases hex with ⟨j, a, b, ha, hb, hpa, hpb⟩
      cases j with
      | zero =>
        cases ha
        cases hb
        have ht : t.countP p ≤ t₂.countP p :=
          countP_le_nth p (by simpa using hlen)
            (fun j a b ha hb => hmono (j + 1) a b ha hb)
        rw [hpa, hpb]
        simp
        omega
      | succ m =>
        have ht : t.countP p < t₂.countP p :=
          ih (by simpa using hlen)
            (fun j a b ha hb => hmono (j + 1) a b ha hb)
            ⟨m, a, b, ha, hb, hpa, hpb⟩
        by_cases hx : p x = true
        · rw [if_pos hx, if_pos (hxy hx)]; omega
        · rw [if_neg hx]; omega

theorem countP_lt_length_of_mem_false {α : Type} (p : α → Bool) :
    ∀ {l : List α} {a : α}, a ∈ l → p a = false → l.countP p < l.length := by
  intro l
  induction l with
  | nil => intro a h; simp at h
  | cons x t ih =>
    intro a h hpa
    rcases List.mem_cons.1 h with rfl | h
    · simp only [List.countP_cons, hpa]
      have := List.countP_le_length (l := t) (p := p)
      simp
      omega
    · have := ih h hpa
      simp only [List.countP_cons, List.length_cons]
      by_cases hx : p x = true
      · rw [if_pos hx]; omega
      · rw [if_neg hx]; omega

theorem exists_false_of_countP_lt {α : Type} (p : α → Bool) :
    ∀ {l : List α}, l.countP p < l.length → ∃ a ∈ l, p a = false := by
  intro l
  induction l with
  | nil => intro h; simp at h
  | cons x t ih =>
    intro h
    by_cases hx : p x = true
    · simp only [List.countP_cons, if_pos hx, List.length_cons] at h
      rcases ih (by omega) with ⟨a, ha, hpa⟩
      exact ⟨a, List.mem_cons_of_mem _ ha, hpa⟩
    · exact ⟨x, List.mem_cons_self _ _, by simpa using hx⟩

theorem allDone_of_countP_eq {cfg : Cfg} (h : doneCount cfg = cfg.calls.length) :
    allDone cfg := by
  intro c hc
  by_contra hno
  have := countP_lt_length_of_mem_false (fun c => isDone c.pc) hc (by simpa using hno)
  rw [doneCount] at h
  omega

theorem mem_runningPids {cfg : Cfg} {p : Nat} :
    p ∈ runningPids cfg ↔ aliveAtOps cfg.ops p := by
  constructor
  · intro h
    rw [runningPids, List.mem_filter] at h
    cases hn : nth cfg.ops p with
    | none => rw [hn] at h; simp at h
    | some o =>
      rw [hn] at h
      simp at h
      exact ⟨o, hn, h.2⟩
  · intro ⟨o, ho, ha⟩
    rw [runningPids, List.mem_filter]
    constructor
    · exact List.mem_range.2 (nth_lt_length ho)
    · rw [ho]
      simpa using ha

theorem aliveAtOps_append {ops : List Op} {p : Nat} (l : List Op)
    (h : aliveAtOps ops p) : aliveAtOps (ops ++ l) p := by
  rcases h with ⟨o, ho, ha⟩
  refine ⟨o, ?_, ha⟩
  rw [nth_append_left _ (nth_lt_length ho)]
  exact ho

/-! ## Structural stability lemmas for the queue machine -/

theorem startOp_calls_length (cfg : Cfg) (i : Nat) (c : Call) :
    (startOp cfg i c).calls.length = cfg.calls.length := by
  simp [startOp]

theorem ceilingRun_calls_length (cfg : Cfg) (i : Nat) :
    (ceilingRun cfg i).calls.length = cfg.calls.length := by
  cases hn : nth cfg.calls i with
  | none => rw [ceilingRun_oob hn]
  | some c =>
    by_cases hle : MAX_CONCURRENT_OPERATIONS ≤ cfg.operationQueue.length
    · rw [ceilingRun_race hn hle]; simp
    · rw [ceilingRun_start hn hle]; exact startOp_calls_length cfg i c

theorem resumeCall_calls_length (cfg : Cfg) (pid : Nat) (r : QRes) (i : Nat) :
    (resumeCall pid r cfg i).calls.length = cfg.calls.length := by
  cases hn : nth cfg.calls i with
  | none => rw [resumeCall_oob pid r hn]
  | some c =>
    cases hpc : c.pc with
    | entry => rw [resumeCall_entry pid r hn hpc]
    | done r' => rw [resumeCall_done pid r hn hpc]
    | awaitExisting p =>
      by_cases hp : p = pid
      · subst hp
        cases r with
        | ok =>
          rw [resumeCall_awaitExisting_hit_ok hn hpc]
          exact ceilingRun_calls_length cfg i
        | err e => rw [resumeCall_awaitExisting_hit_err hn hpc]; simp
      · rw [resumeCall_awaitExisting_miss r hn hpc hp]
    | racing ps =>
      by_cases hp : pid ∈ ps
      · cases r with
        | ok =>
          rw [resumeCall_racing_hit_ok hn hpc hp]
          exact ceilingRun_calls_length cfg i
        | err e => rw [resumeCall_racing_hit_err hn hpc hp]; simp
      · rw [resumeCall_racing_miss r hn hpc hp]
    | awaitOwn p =>
      by_cases hp : p = pid
      · subst hp
        rw [resumeCall_awaitOwn_hit r hn hpc]; simp
      · rw [resumeCall_awaitOwn_miss r hn hpc hp]

theorem cascade_calls_length (cfg : Cfg) (pid : Nat) (r : QRes) :
    ∀ n : Nat, (cascade pid r cfg n).calls.length = cfg.calls.length := by
  intro n
  induction n with
  | zero => rfl
  | succ m ih =>
    show (resumeCall pid r (cascade pid r cfg m) m).calls.length = _
    rw [resumeCall_calls_length, ih]

theorem ceilingRun_ops_getPrefix {cfg : Cfg} {q : Nat} {o : Op} (i : Nat)
    (h : nth cfg.ops q = some o) : nth (ceilingRun cfg i).ops q = some o := by
  cases hn : nth cfg.calls i with
  | none => rw [ceilingRun_oob hn]; exact h
  | some c =>
    by_cases hle : MAX_CONCURRENT_OPERATIONS ≤ cfg.operationQueue.length
    · rw [ceilingRun_race hn hle]; exact h
    · rw [ceilingRun_start hn hle]
      simp only [startOp]
      rw [nth_append_left _ (nth_lt_length h)]
      exact h

theorem resumeCall_ops_getPrefix {cfg : Cfg} {q : Nat} {o : Op} (pid : Nat) (r : QRes)
    (i : Nat) (h : nth cfg.ops q = some o) :
    nth (resumeCall pid r cfg i).ops q = some o := by
  cases hn : nth cfg.calls i with
  | none => rw [resumeCall_oob pid r hn]; exact h
  | some c =>
    cases hpc : c.pc with
    | entry => rw [resumeCall_entry pid r hn hpc]; exact h
    | done r' => rw [resumeCall_done pid r hn hpc]; exact h
    | awaitExisting p =>
      by_cases hp : p = pid
      · subst hp
        cases r with
        | ok =>
          rw [resumeCall_awaitExisting_hit_ok hn hpc]
          exact ceilingRun_ops_getPrefix i h
        | err e => rw [resumeCall_awaitExisting_hit_err hn hpc]; exact h
      · rw [resumeCall_awaitExisting_miss r hn hpc hp]; exact h
    | racing ps =>
      by_cases hp : pid ∈ ps
      · cases r with
        | ok =>
          rw [resumeCall_racing_hit_ok hn hpc hp]
          exact ceilingRun_ops_getPrefix i h
        | err e => rw [resumeCall_racing_hit_err hn hpc hp]; exact h
      · rw [resumeCall_racing_miss r hn hpc hp]; exact h
    | awaitOwn p =>
      by_cases hp : p = pid
      · subst hp
        rw [resumeCall_awaitOwn_hit r hn hpc]; exact h
      · rw [resumeCall_awaitOwn_miss r hn hpc hp]; exact h

theorem cascade_ops_getPrefix {cfg : Cfg} {q : Nat} {o : Op} (pid : Nat) (r : QRes)
    (h : nth cfg.ops q = some o) :
    ∀ n : Nat, nth (cascade pid r cfg n).ops q = some o := by
  intro n
  induction n with
  | zero => exact h
  | succ m ih => exact resumeCall_ops_getPrefix pid r m ih

theorem done_resume {cfg : Cfg} {j : Nat} {a : Call} {r₀ : QRes} (pid : Nat) (r : QRes)
    (i : Nat) (h : nth cfg.calls j = some a) (hd : a.pc = .done r₀) :
    nth (resumeCall pid r cfg i).calls j = some a := by
  by_cases hij : i = j
  · subst hij
    rw [resumeCall_done pid r h hd]
    exact h
  · rw [resumeCall_calls_ne pid r i j (Ne.symm hij)]
    exact h

theorem done_cascade {cfg : Cfg} {j : Nat} {a : Call} {r₀ : QRes} (pid : Nat) (r : QRes)
    (h : nth cfg.calls j = some a) (hd : a.pc = .done r₀) :
    ∀ n : Nat, nth (cascade pid r cfg n).calls j = some a := by
  intro n
  induction n with
  | zero => exact h
  | succ m ih => exact done_resume pid r m ih hd

theorem done_settle {cfg : Cfg} {j : Nat} {a : Call} {r₀ : QRes} (pid : Nat) (r : QRes)
    (h : nth cfg.calls j = some a) (hd : a.pc = .done r₀) :
    nth (settle cfg pid r).calls j = some a := by
  cases hn : nth cfg.ops pid with
  | none => rw [settle_oob r hn]; exact h
  | some op =>
    by_cases ha : op.alive = true
    · rw [settle_alive r hn ha]
      refine done_cascade pid r ?_ hd _
      exact h
    · rw [settle_dead r hn ha]; exact h

theorem cascade_awaitOwn {cfg : Cfg} (pid : Nat) (r : QRes) :
    ∀ (n j : Nat) (c : Call), j < n → nth cfg.calls j = some c →
      c.pc = .awaitOwn pid →
      nth (cascade pid r cfg n).calls j = some { c with pc := .done r } := by
  intro n
  induction n with
  | zero => intro j c hj _ _; exact absurd hj (by omega)
  | succ m ih =>
    intro j c hj hc hpc
    show nth (resumeCall pid r (cascade pid r cfg m) m).calls j = _
    by_cases hjm : j = m
    · subst hjm
      have hc' : nth (cascade pid r cfg j).calls j = some c :=
        (cascade_calls_ge pid r j j (Nat.le_refl j)).trans hc
      rw [resumeCall_awaitOwn_hit r hc' hpc]
      exact nth_set_self _ hc'
    · rw [resumeCall_calls_ne pid r m j hjm]
      exact ih j c (by omega) hc hpc

/-! ## WaitOK transport lemmas -/

theorem waitok_ops_mono {ops ops' : List Op} {ex : Option Nat} {c : Call}
    (hm : ∀ p, aliveAtOps ops p → aliveAtOps ops' p)
    (h : WaitOKg ops ex c) : WaitOKg ops' ex c := by
  cases hpc : c.pc with
  | entry => simp only [WaitOKg, hpc] at h
  | done r => simp only [WaitOKg, hpc]
  | awaitExisting p =>
    simp only [WaitOKg, hpc] at h ⊢
    rcases h with ⟨hs, h | h⟩
    · exact ⟨hs, Or.inl (hm p h)⟩
    · exact ⟨hs, Or.inr h⟩
  | racing ps =>
    simp only [WaitOKg, hpc] at h ⊢
    refine ⟨h.1, h.2.1, fun p hp => ?_⟩
    rcases h.2.2 p hp with h' | h'
    · exact Or.inl (hm p h')
    · exact Or.inr h'
  | awaitOwn p =>
    simp only [WaitOKg, hpc] at h ⊢
    rcases h with h | h
    · exact Or.inl (hm p h)
    · exact Or.inr h

theorem waitok_kill {ops : List Op} {pid : Nat} {op : Op} {c : Call}
    (h : WaitOKg ops none c) :
    WaitOKg (ops.set pid { op with alive := false }) (some pid) c := by
  have hm : ∀ p, aliveAtOps ops p →
      aliveOrEx (ops.set pid { op with alive := false }) (some pid) p := by
    intro p hp
    by_cases hpp : p = pid
    · exact Or.inr (by rw [hpp])
    · rcases hp with ⟨o, ho, ha⟩
      refine Or.inl ⟨o, ?_, ha⟩
      rw [nth_set_ne _ pid p _ (Ne.symm hpp)]
      exact ho
  cases hpc : c.pc with
  | entry => simp only [WaitOKg, hpc] at h
  | done r => simp only [WaitOKg, hpc]
  | awaitExisting p =>
    simp only [WaitOKg, hpc] at h ⊢
    rcases h with ⟨hs, h | h⟩
    · exact ⟨hs, hm p h⟩
    · cases h
  | racing ps =>
    simp only [WaitOKg, hpc] at h ⊢
    refine ⟨h.1, h.2.1, fun p hp => ?_⟩
    rcases h.2.2 p hp with h' | h'
    · exact hm p h'
    · cases h'
  | awaitOwn p =>
    simp only [WaitOKg, hpc] at h ⊢
    rcases h with h | h
    · exact hm p h
    · cases h

theorem waitok_none_of_norefs {ops : List Op} {pid : Nat} {c : Call}
    (h : WaitOKg ops (some pid) c) (hr : ¬ RefsPid pid c) : WaitOKg ops none c := by
  cases hpc : c.pc with
  | entry => simp only [WaitOKg, hpc] at h
  | done r => simp only [WaitOKg, hpc]
  | awaitExisting p =>
    simp only [WaitOKg, hpc] at h ⊢
    simp only [RefsPid, hpc] at hr
    rcases h with ⟨hs, h | h⟩
    · exact ⟨hs, Or.inl h⟩
    · cases h; exact absurd rfl hr
  | racing ps =>
    simp only [WaitOKg, hpc] at h ⊢
    simp only [RefsPid, hpc] at hr
    refine ⟨h.1, h.2.1, fun p hp => ?_⟩
    rcases h.2.2 p hp with h' | h'
    · exact Or.inl h'
    · cases h'; exact absurd hp hr
  | awaitOwn p =>
    simp only [WaitOKg, hpc] at h ⊢
    simp only [RefsPid, hpc] at hr
    rcases h with h | h
    · exact Or.inl h
    · cases h; exact absurd rfl hr

/-! ## Preservation of the full invariant `WFg` -/

theorem wfg_key_not_in_map {keys : List Nat} {ex : Option Nat} {cfg : Cfg} {i : Nat}
    {c : Call} (hND : keys.Nodup) (h : WFg keys ex cfg)
    (hn : nth cfg.calls i = some c) (hst : c.started = false) :
    c.key ∉ cfg.operationQueue.map Prod.fst := by
  intro hmem
  rcases List.mem_map.1 hmem with ⟨⟨k', q⟩, hq, hk'⟩
  have hk'' : k' = c.key := hk'
  subst hk''
  rcases h.inv1.map_valid _ q hq with ⟨o, ho, hok, hoa⟩
  rcases h.alive_owner q o ho hoa with ⟨c₂, hc₂, hkey₂, hst₂, _⟩
  have h1 := h.key_eq o.owner c₂ hc₂
  rw [hkey₂, hok] at h1
  have h2 := h.key_eq i c hn
  have hoi : o.owner = i := nodup_nth_inj hND h1 h2
  rw [hoi, hn] at hc₂
  cases hc₂
  rw [hst] at hst₂
  cases hst₂

theorem wfg_startOp {keys : List Nat} {ex : Option Nat} {cfg : Cfg} {i : Nat} {c : Call}
    (hND : keys.Nodup) (h : WFg keys ex cfg)
    (hn : nth cfg.calls i = some c) (hst : c.started = false)
    (hlt : ¬ MAX_CONCURRENT_OPERATIONS ≤ cfg.operationQueue.length) :
    WFg keys ex (startOp cfg i c) := by
  have hkmem : c.key ∉ cfg.operationQueue.map Prod.fst := wfg_key_not_in_map hND h hn hst
  have hset := setA_eq_append (k := c.key) cfg.ops.length hkmem
  constructor
  case calls_len => simp [startOp, h.calls_len]
  case key_eq =>
    intro j cj hj
    simp only [startOp] at hj
    rcases nth_set_cases (l := cfg.calls) (i := i) (j := j)
        (b := { c with pc := .awaitOwn cfg.ops.length, started := true }) with heq | ⟨rfl, heq⟩
    · rw [heq] at hj
      exact h.key_eq j cj hj
    · rw [heq] at hj
      cases hj
      exact h.key_eq i c hn
  case map_le =>
    simp only [startOp]
    rw [hset, List.length_append]
    simp only [List.length_singleton]
    omega
  case inv1 => exact inv1_startOp h.inv1 i c
  case alive_owner =>
    intro p o hp ho
    simp only [startOp] at hp ⊢
    rcases nth_append_single_cases hp with hp' | ⟨rfl, rfl⟩
    · rcases h.alive_owner p o hp' ho with ⟨c₂, hc₂, hk₂, hs₂, hpc₂⟩
      have hne : o.owner ≠ i := by
        intro he
        rw [he, hn] at hc₂
        cases hc₂
        rw [hst] at hs₂
        cases hs₂
      refine ⟨c₂, ?_, hk₂, hs₂, hpc₂⟩
      rw [nth_set_ne _ i o.owner _ (Ne.symm hne)]
      exact hc₂
    · exact ⟨{ c with pc := .awaitOwn cfg.ops.length, started := true },
        nth_set_self _ hn, rfl, rfl, rfl⟩
  case alive_in_map =>
    intro p o hp ho
    simp only [startOp] at hp ⊢
    rcases nth_append_single_cases hp with hp' | ⟨rfl, rfl⟩
    · have hold := h.alive_in_map p o hp' ho
      have hkne : o.key ≠ c.key := by
        intro he
        rw [he] at hold
        exact hkmem (List.mem_map.2 ⟨(c.key, p), lookupA_mem hold, rfl⟩)
      rw [lookupA_setA_ne _ hkne _]
      exact hold
    · exact lookupA_setA_self _ _ _
  case count_eq =>
    simp only [startOp, aliveCount]
    rw [hset, List.length_append, List.countP_append]
    have h1 : List.countP (fun o => o.alive) [(⟨c.key, i, true⟩ : Op)] = 1 := by
      simp [List.countP_cons]
    have h2 := h.count_eq
    rw [aliveCount] at h2
    simp only [List.length_singleton, h1]
    omega
  case pc_wait =>
    intro j cj hj
    simp only [startOp] at hj
    have hmono : ∀ p, aliveAtOps cfg.ops p →
        aliveAtOps (cfg.ops ++ [⟨c.key, i, true⟩]) p :=
      fun p hp => aliveAtOps_append _ hp
    rcases nth_set_cases (l := cfg.calls) (i := i) (j := j)
        (b := { c with pc := .awaitOwn cfg.ops.length, started := true }) with heq | ⟨rfl, heq⟩
    · rw [heq] at hj
      exact waitok_ops_mono hmono (h.pc_wait j cj hj)
    · rw [heq] at hj
      cases hj
      simp only [WaitOKg]
      exact Or.inl ⟨⟨c.key, i, true⟩, nth_append_self _ _, rfl⟩

theorem wfg_race {keys : List Nat} {ex : Option Nat} {cfg : Cfg} {i : Nat} {c : Call}
    (h : WFg keys ex cfg)
    (hn : nth cfg.calls i = some c) (hst : c.started = false)
    (hge : MAX_CONCURRENT_OPERATIONS ≤ cfg.operationQueue.length) :
    WFg keys ex { cfg with
      calls := cfg.calls.set i ({ c with pc := .racing (cfg.operationQueue.map Prod.snd) }) } := by
  constructor
  case calls_len => simp [h.calls_len]
  case key_eq =>
    intro j cj hj
    rcases nth_set_cases (l := cfg.calls) (i := i) (j := j)
        (b := { c with pc := .racing (cfg.operationQueue.map Prod.snd) }) with heq | ⟨rfl, heq⟩
    · rw [heq] at hj
      exact h.key_eq j cj hj
    · rw [heq] at hj
      cases hj
      exact h.key_eq i c hn
  case map_le => exact h.map_le
  case inv1 => exact inv1_calls_only h.inv1 _
  case alive_owner =>
    intro p o hp ho
    rcases h.alive_owner p o hp ho with ⟨c₂, hc₂, hk₂, hs₂, hpc₂⟩
    have hne : o.owner ≠ i := by
      intro he
      rw [he, hn] at hc₂
      cases hc₂
      rw [hst] at hs₂
      cases hs₂
    refine ⟨c₂, ?_, hk₂, hs₂, hpc₂⟩
    show nth (cfg.calls.set i ({ c with pc := .racing (cfg.operationQueue.map Prod.snd) }))
      o.owner = some c₂
    rw [nth_set_ne _ i o.owner _ (Ne.symm hne)]
    exact hc₂
  case alive_in_map => exact h.alive_in_map
  case count_eq => exact h.count_eq
  case pc_wait =>
    intro j cj hj
    rcases nth_set_cases (l := cfg.calls) (i := i) (j := j)
        (b := { c with pc := .racing (cfg.operationQueue.map Prod.snd) }) with heq | ⟨rfl, heq⟩
    · rw [heq] at hj
      exact h.pc_wait j cj hj
    · rw [heq] at hj
      cases hj
      simp only [WaitOKg]
      refine ⟨hst, ?_, ?_⟩
      · intro hnil
        have hq : cfg.operationQueue = [] := by
          cases hq : cfg.operationQueue with
          | nil => rfl
          | cons kv t => rw [hq] at hnil; simp at hnil
        rw [hq] at hge
        simp [MAX_CONCURRENT_OPERATIONS] at hge
      · intro p hp
        rcases List.mem_map.1 hp with ⟨⟨k', p'⟩, hq, hp'⟩
        cases hp'
        rcases h.inv1.map_valid k' p' hq with ⟨o', ho', _, ha'⟩
        exact Or.inl ⟨o', ho', ha'⟩

theorem wfg_set_done {keys : List Nat} {ex : Option Nat} {cfg : Cfg} {i : Nat} {c : Call}
    (r : QRes) (h : WFg keys ex cfg) (hn : nth cfg.calls i = some c)
    (hnoown : ∀ q oq, nth cfg.ops q = some oq → oq.alive = true → oq.owner ≠ i) :
    WFg keys ex { cfg with calls := cfg.calls.set i ({ c with pc := .done r }) } := by
  constructor
  case calls_len => simp [h.calls_len]
  case key_eq =>
    intro j cj hj
    rcases nth_set_cases (l := cfg.calls) (i := i) (j := j)
        (b := { c with pc := .done r }) with heq | ⟨rfl, heq⟩
    · rw [heq] at hj
      exact h.key_eq j cj hj
    · rw [heq] at hj
      cases hj
      exact h.key_eq i c hn
  case map_le => exact h.map_le
  case inv1 => exact inv1_calls_only h.inv1 _
  case alive_owner =>
    intro p o hp ho
    rcases h.alive_owner p o hp ho with ⟨c₂, hc₂, hk₂, hs₂, hpc₂⟩
    have hne : o.owner ≠ i := hnoown p o hp ho
    refine ⟨c₂, ?_, hk₂, hs₂, hpc₂⟩
    show nth (cfg.calls.set i ({ c with pc := .done r })) o.owner = some c₂
    rw [nth_set_ne _ i o.owner _ (Ne.symm hne)]
    exact hc₂
  case alive_in_map => exact h.alive_in_map
  case count_eq => exact h.count_eq
  case pc_wait =>
    intro j cj hj
    rcases nth_set_cases (l := cfg.calls) (i := i) (j := j)
        (b := { c with pc := .done r }) with heq | ⟨rfl, heq⟩
    · rw [heq] at hj
      exact h.pc_wait j cj hj
    · rw [heq] at hj
      cases hj
      simp only [WaitOKg]

theorem wfg_ceilingRun {keys : List Nat} {ex : Option Nat} {cfg : Cfg} {i : Nat} {c : Call}
    (hND : keys.Nodup) (h : WFg keys ex cfg)
    (hn : nth cfg.calls i = some c) (hst : c.started = false) :
    WFg keys ex (ceilingRun cfg i) := by
  by_cases hle : MAX_CONCURRENT_OPERATIONS ≤ cfg.operationQueue.length
  · rw [ceilingRun_race hn hle]
    exact wfg_race h hn hst hle
  · rw [ceilingRun_start hn hle]
    exact wfg_startOp hND h hn hst hle

theorem ceilingRun_call_norefs {keys : List Nat} {cfg : Cfg} {pid : Nat} {i : Nat} {c : Call}
    {op0 : Op} (h : WFg keys (some pid) cfg) (hn : nth cfg.calls i = some c)
    (hpid : nth cfg.ops pid = some op0) (hdead : op0.alive = false) :
    ∀ c', nth (ceilingRun cfg i).calls i = some c' → ¬ RefsPid pid c' := by
  by_cases hle : MAX_CONCURRENT_OPERATIONS ≤ cfg.operationQueue.length
  · rw [ceilingRun_race hn hle]
    intro c' hc'
    have hc2 : nth (cfg.calls.set i { c with pc := .racing (cfg.operationQueue.map Prod.snd) }) i = some c' := hc'
    rw [nth_set_self _ hn] at hc2
    cases hc2
    simp only [RefsPid]
    intro hmem
    rcases List.mem_map.1 hmem with ⟨⟨k', p'⟩, hq, hp'⟩
    cases hp'
    rcases h.inv1.map_valid k' p' hq with ⟨o, ho, _, ha2⟩
    have hoo : some o = some op0 := ho.symm.trans hpid
    cases hoo
    rw [hdead] at ha2
    cases ha2
  · rw [ceilingRun_start hn hle]
    intro c' hc'
    simp only [startOp] at hc'
    rw [nth_set_self _ hn] at hc'
    cases hc'
    simp only [RefsPid]
    have := nth_lt_length hpid
    omega

theorem wfg_resume_mid {keys : List Nat} {cfg : Cfg} {pid : Nat} {op0 : Op}
    (hND : keys.Nodup) (h : WFg keys (some pid) cfg)
    (hpid : nth cfg.ops pid = some op0) (hdead : op0.alive = false)
    (r : QRes) (n : Nat) :
    WFg keys (some pid) (resumeCall pid r cfg n) ∧
    (∀ c', nth (resumeCall pid r cfg n).calls n = some c' → ¬ RefsPid pid c') := by
  cases hn : nth cfg.calls n with
  | none =>
    rw [resumeCall_oob pid r hn]
    refine ⟨h, fun c' hc' => ?_⟩
    rw [hn] at hc'
    cases hc'
  | some c =>
    cases hpc : c.pc with
    | entry =>
      have hw := h.pc_wait n c hn
      simp only [WaitOKg, hpc] at hw
    | done r' =>
      rw [resumeCall_done pid r hn hpc]
      refine ⟨h, fun c' hc' => ?_⟩
      rw [hn] at hc'
      cases hc'
      simp [RefsPid, hpc]
    | awaitExisting p =>
      have hw := h.pc_wait n c hn
      simp only [WaitOKg, hpc] at hw
      by_cases hp : p = pid
      · subst hp
        cases r with
        | ok =>
          rw [resumeCall_awaitExisting_hit_ok hn hpc]
          exact ⟨wfg_ceilingRun hND h hn hw.1, ceilingRun_call_norefs h hn hpid hdead⟩
        | err e =>
          rw [resumeCall_awaitExisting_hit_err hn hpc]
          have hnoown : ∀ q oq, nth cfg.ops q = some oq → oq.alive = true →
              oq.owner ≠ n := by
            intro q oq hq ha he
            rcases h.alive_owner q oq hq ha with ⟨c₂, hc₂, _, hs₂, _⟩
            rw [he, hn] at hc₂
            cases hc₂
            rw [hw.1] at hs₂
            cases hs₂
          refine ⟨wfg_set_done (.err e) h hn hnoown, fun c' hc' => ?_⟩
          have hc2 : nth (cfg.calls.set n { c with pc := .done (.err e) }) n = some c' := hc'
          rw [nth_set_self _ hn] at hc2
          cases hc2
          simp [RefsPid]
      · rw [resumeCall_awaitExisting_miss r hn hpc hp]
        refine ⟨h, fun c' hc' => ?_⟩
        rw [hn] at hc'
        cases hc'
        simp only [RefsPid, hpc]
        exact hp
    | racing ps =>
      have hw := h.pc_wait n c hn
      simp only [WaitOKg, hpc] at hw
      by_cases hp : pid ∈ ps
      · cases r with
        | ok =>
          rw [resumeCall_racing_hit_ok hn hpc hp]
          exact ⟨wfg_ceilingRun hND h hn hw.1, ceilingRun_call_norefs h hn hpid hdead⟩
        | err e =>
          rw [resumeCall_racing_hit_err hn hpc hp]
          have hnoown : ∀ q oq, nth cfg.ops q = some oq → oq.alive = true →
              oq.owner ≠ n := by
            intro q oq hq ha he
            rcases h.alive_owner q oq hq ha with ⟨c₂, hc₂, _, hs₂, _⟩
            rw [he, hn] at hc₂
            cases hc₂
            rw [hw.1] at hs₂
            cases hs₂
          refine ⟨wfg_set_done (.err e) h hn hnoown, fun c' hc' => ?_⟩
          have hc2 : nth (cfg.calls.set n { c with pc := .done (.err e) }) n = some c' := hc'
          rw [nth_set_self _ hn] at hc2
          cases hc2
          simp [RefsPid]
      · rw [resumeCall_racing_miss r hn hpc hp]
        refine ⟨h, fun c' hc' => ?_⟩
        rw [hn] at hc'
        cases hc'
        simp only [RefsPid, hpc]
        exact hp
    | awaitOwn p =>
      by_cases hp : p = pid
      · subst hp
        rw [resumeCall_awaitOwn_hit r hn hpc]
        have hnoown : ∀ q oq, nth cfg.ops q = some oq → oq.alive = true →
            oq.owner ≠ n := by
          intro q oq hq ha he
          rcases h.alive_owner q oq hq ha with ⟨c₂, hc₂, _, _, hpc₂⟩
          rw [he, hn] at hc₂
          cases hc₂
          rw [hpc] at hpc₂
          cases hpc₂
          rw [hpid] at hq
          cases hq
          rw [hdead] at ha
          cases ha
        refine ⟨wfg_set_done r h hn hnoown, fun c' hc' => ?_⟩
        have hc2 : nth (cfg.calls.set n { c with pc := .done r }) n = some c' := hc'
        rw [nth_set_self _ hn] at hc2
        cases hc2
        simp [RefsPid]
      · rw [resumeCall_awaitOwn_miss r hn hpc hp]
        refine ⟨h, fun c' hc' => ?_⟩
        rw [hn] at hc'
        cases hc'
        simp only [RefsPid, hpc]
        exact hp

theorem wfg_cascade_mid {keys : List Nat} {cfg : Cfg} {pid : Nat} {op0 : Op}
    (hND : keys.Nodup) (h : WFg keys (some pid) cfg)
    (hpid : nth cfg.ops pid = some op0) (hdead : op0.alive = false) (r : QRes) :
    ∀ n : Nat,
      WFg keys (some pid) (cascade pid r cfg n) ∧
      (∀ i c', i < n → nth (cascade pid r cfg n).calls i = some c' →
        ¬ RefsPid pid c') := by
  intro n
  induction n with
  | zero => exact ⟨h, fun i c' hi _ => absurd hi (by omega)⟩
  | succ m ih =>
    have hpid' : nth (cascade pid r cfg m).ops pid = some op0 :=
      cascade_ops_getPrefix pid r hpid m
    have step := wfg_resume_mid hND ih.1 hpid' hdead r m
    refine ⟨step.1, fun i c' hi hc' => ?_⟩
    by_cases him : i = m
    · subst him
      exact step.2 c' hc'
    · rw [show cascade pid r cfg (m + 1)
          = resumeCall pid r (cascade pid r cfg m) m from rfl,
        resumeCall_calls_ne pid r m i him] at hc'
      exact ih.2 i c' (by omega) hc'

theorem wfg_of_norefs {keys : List Nat} {pid : Nat} {cfg : Cfg}
    (h : WFg keys (some pid) cfg)
    (hnr : ∀ i c, nth cfg.calls i = some c → ¬ RefsPid pid c) : WFg keys none cfg where
  calls_len := h.calls_len
  key_eq := h.key_eq
  map_le := h.map_le
  inv1 := h.inv1
  alive_owner := h.alive_owner
  alive_in_map := h.alive_in_map
  count_eq := h.count_eq
  pc_wait := fun i c hc => waitok_none_of_norefs (h.pc_wait i c hc) (hnr i c hc)

theorem wfg_settle {keys : List Nat} {cfg : Cfg} (hND : keys.Nodup)
    (h : WFg keys none cfg) (pid : Nat) (r : QRes) :
    WFg keys none (settle cfg pid r) := by
  cases hn : nth cfg.ops pid with
  | none => rw [settle_oob r hn]; exact h
  | some op =>
    by_cases ha : op.alive = true
    case neg => rw [settle_dead r hn ha]; exact h
    case pos =>
      rw [settle_alive r hn ha]
      have hkeymem : op.key ∈ cfg.operationQueue.map Prod.fst :=
        List.mem_map.2 ⟨(op.key, pid), lookupA_mem (h.alive_in_map pid op hn ha), rfl⟩
      have hmid : WFg keys (some pid)
          { cfg with ops := cfg.ops.set pid { op with alive := false },
                     operationQueue := delA op.key cfg.operationQueue } := by
        constructor
        case calls_len => exact h.calls_len
        case key_eq => exact h.key_eq
        case map_le =>
          exact le_trans (List.Sublist.length_le (delA_sublist _ _)) h.map_le
        case inv1 =>
          constructor
          · intro k p hm
            have hm' := mem_delA hm
            rcases h.inv1.map_valid k p hm' with ⟨o, ho, hk, hal⟩
            have hpne : p ≠ pid := by
              rintro rfl
              rw [ho] at hn
              cases hn
              exact not_mem_delA_self h.inv1.map_keys_nodup p (hk ▸ hm)
            refine ⟨o, ?_, hk, hal⟩
            rw [nth_set_ne _ pid p _ (Ne.symm hpne)]
            exact ho
          · exact delA_keys_nodup h.inv1.map_keys_nodup
        case alive_owner =>
          intro p o hp ho
          by_cases hpp : p = pid
          · subst hpp
            rw [nth_set_self _ hn] at hp
            cases hp
            cases ho
          · rw [nth_set_ne _ pid p _ (Ne.symm hpp)] at hp
            exact h.alive_owner p o hp ho
        case alive_in_map =>
          intro p o hp ho
          by_cases hpp : p = pid
          · subst hpp
            rw [nth_set_self _ hn] at hp
            cases hp
            cases ho
          · rw [nth_set_ne _ pid p _ (Ne.symm hpp)] at hp
            have hold := h.alive_in_map p o hp ho
            have hkne : o.key ≠ op.key := by
              intro he
              have h2 := h.alive_in_map pid op hn ha
              rw [he] at hold
              rw [hold] at h2
              cases h2
              exact hpp rfl
            rw [lookupA_delA_ne hkne _ h.inv1.map_keys_nodup]
            exact hold
        case count_eq =>
          have hflip := countP_set_flip (·.alive) ({ op with alive := false } : Op) hn
          simp [ha] at hflip
          have hlen := length_delA_mem hkeymem
          have hcount := h.count_eq
          simp only [aliveCount] at hcount
          show (cfg.ops.set pid { op with alive := false }).countP (·.alive)
            = (delA op.key cfg.operationQueue).length
          omega
        case pc_wait =>
          intro i c hc
          exact waitok_kill (h.pc_wait i c hc)
      have hpid1 : nth (cfg.ops.set pid { op with alive := false }) pid
          = some { op with alive := false } := nth_set_self _ hn
      have final := wfg_cascade_mid hND hmid hpid1 rfl r cfg.calls.length
      apply wfg_of_norefs final.1
      intro i c' hc'
      have hlt : i < cfg.calls.length := by
        have h1 := nth_lt_length hc'
        rw [cascade_calls_length] at h1
        exact h1
      exact final.2 i c' hlt hc'

theorem wfg_stepQ {keys : List Nat} {cfg : Cfg} (hND : keys.Nodup)
    (h : WFg keys none cfg) (ch : Nat × QRes) : WFg keys none (stepQ cfg ch) := by
  by_cases hz : (runningPids cfg).length = 0
  · rw [stepQ_empty ch hz]; exact h
  · rw [stepQ_go ch hz]; exact wfg_settle hND h _ _

theorem wfg_runQ {keys : List Nat} {cfg : Cfg} (hND : keys.Nodup)
    (h : WFg keys none cfg) :
    ∀ sched : List (Nat × QRes), WFg keys none (runQ cfg sched) := by
  intro sched
  induction sched generalizing cfg with
  | nil => exact h
  | cons ch t ih => exact ih (wfg_stepQ hND h ch)

theorem not_mem_map_fst_of_lookupA_none : ∀ {m : List (Nat × Nat)} {k : Nat},
    lookupA k m = none → k ∉ m.map Prod.fst := by
  intro m
  induction m with
  | nil => intro k _ hmem; simp at hmem
  | cons kv t ih =>
    intro k hl hmem
    obtain ⟨k₀, v₀⟩ := kv
    by_cases e : k₀ = k
    · rw [lookupA, if_pos e] at hl
      cases hl
    · rw [lookupA, if_neg e] at hl
      rw [List.map_cons] at hmem
      rcases List.mem_cons.1 hmem with hmem | hmem
      · exact e hmem.symm
      · exact ih hl hmem

theorem lookupA_append_some : ∀ {m : List (Nat × Nat)} {k v : Nat},
    lookupA k m = some v → ∀ m', lookupA k (m ++ m') = some v := by
  intro m
  induction m with
  | nil => intro k v h; simp [lookupA] at h
  | cons kv t ih =>
    intro k v h m'
    obtain ⟨k₀, v₀⟩ := kv
    by_cases e : k₀ = k
    · rw [lookupA, if_pos e] at h
      rw [List.cons_append, lookupA, if_pos e]
      exact h
    · rw [lookupA, if_neg e] at h
      rw [List.cons_append, lookupA, if_neg e]
      exact ih h m'

theorem lookupA_append_none : ∀ {m : List (Nat × Nat)} {k : Nat},
    lookupA k m = none → ∀ m', lookupA k (m ++ m') = lookupA k m' := by
  intro m
  induction m with
  | nil => intro k _ m'; rfl
  | cons kv t ih =>
    intro k h m'
    obtain ⟨k₀, v₀⟩ := kv
    by_cases e : k₀ = k
    · rw [lookupA, if_pos e] at h
      cases h
    · rw [lookupA, if_neg e] at h
      rw [List.cons_append, lookupA, if_neg e]
      exact ih h m'

theorem nth_keys_append {keys : List Nat} {calls : List Call} {k : Nat} {c : Call}
    (hlen : calls.length = keys.length)
    (hke : ∀ i c', nth calls i = some c' → nth keys i = some c'.key)
    (hck : c.key = k) :
    ∀ j cj, nth (calls ++ [c]) j = some cj → nth (keys ++ [k]) j = some cj.key := by
  intro j cj hj
  by_cases hlt : j < calls.length
  · rw [nth_append_left [c] hlt] at hj
    rw [nth_append_left [k] (by omega : j < keys.length)]
    exact hke j cj hj
  · by_cases hje : j = calls.length
    · subst hje
      rw [nth_append_self] at hj
      cases hj
      rw [hlen, nth_append_self, hck]
    · have hge : calls.length ≤ j := by omega
      rw [nth_append_ge [c] hge] at hj
      cases hm : j - calls.length with
      | zero => omega
      | succ m => rw [hm] at hj; simp [nth] at hj

theorem wfg_append_call {keys : List Nat} {ex : Option Nat} {cfg : Cfg} {k : Nat} {c : Call}
    (h : WFg keys ex cfg) (hck : c.key = k) (hwait : WaitOKg cfg.ops ex c) :
    WFg (keys ++ [k]) ex { cfg with calls := cfg.calls ++ [c] } := by
  constructor
  case calls_len => simp [h.calls_len]
  case key_eq =>
    intro j cj hj
    exact nth_keys_append h.calls_len h.key_eq hck j cj hj
  case map_le => exact h.map_le
  case inv1 => exact inv1_calls_only h.inv1 _
  case alive_owner =>
    intro p o hp ho
    rcases h.alive_owner p o hp ho with ⟨c₂, hc₂, hk₂, hs₂, hpc₂⟩
    refine ⟨c₂, ?_, hk₂, hs₂, hpc₂⟩
    show nth (cfg.calls ++ [c]) o.owner = some c₂
    rw [nth_append_left [c] (nth_lt_length hc₂)]
    exact hc₂
  case alive_in_map => exact h.alive_in_map
  case count_eq => exact h.count_eq
  case pc_wait =>
    intro j cj hj
    have hj' : nth (cfg.calls ++ [c]) j = some cj := hj
    by_cases hlt : j < cfg.calls.length
    · rw [nth_append_left [c] hlt] at hj'
      exact h.pc_wait j cj hj'
    · by_cases hje : j = cfg.calls.length
      · subst hje
        rw [nth_append_self] at hj'
        cases hj'
        exact hwait
      · have hge : cfg.calls.length ≤ j := by omega
        rw [nth_append_ge [c] hge] at hj'
        cases hm : j - cfg.calls.length with
        | zero => omega
        | succ m => rw [hm] at hj'; simp [nth] at hj'

theorem enqueueKey_hit {cfg : Cfg} {k p : Nat}
    (hl : lookupA k cfg.operationQueue = some p) :
    enqueueKey cfg k =
      { cfg with calls := cfg.calls ++ [⟨k, .awaitExisting p, false⟩] } := by
  have hn2 : nth ({ cfg with calls := cfg.calls ++ [⟨k, PC.entry, false⟩] } : Cfg).calls cfg.calls.length = some ⟨k, PC.entry, false⟩ := nth_append_self _ _
  have hl' : lookupA (Call.key ⟨k, PC.entry, false⟩) ({ cfg with calls := cfg.calls ++ [⟨k, PC.entry, false⟩] } : Cfg).operationQueue = some p := hl
  show entryRun { cfg with calls := cfg.calls ++ [⟨k, PC.entry, false⟩] } cfg.calls.length = _
  rw [entryRun_hit hn2 hl']
  rw [show ({ cfg with calls := cfg.calls ++ [⟨k, PC.entry, false⟩] } : Cfg).calls = cfg.calls ++ [⟨k, PC.entry, false⟩] from rfl]
  rw [set_append_last]

theorem enqueueKey_race {cfg : Cfg} {k : Nat}
    (hl : lookupA k cfg.operationQueue = none)
    (hge : MAX_CONCURRENT_OPERATIONS ≤ cfg.operationQueue.length) :
    enqueueKey cfg k =
      { cfg with calls :=
          cfg.calls ++ [⟨k, .racing (cfg.operationQueue.map Prod.snd), false⟩] } := by
  have hn2 : nth ({ cfg with calls := cfg.calls ++ [⟨k, PC.entry, false⟩] } : Cfg).calls cfg.calls.length = some ⟨k, PC.entry, false⟩ := nth_append_self _ _
  have hl' : lookupA (Call.key ⟨k, PC.entry, false⟩) ({ cfg with calls := cfg.calls ++ [⟨k, PC.entry, false⟩] } : Cfg).operationQueue = none := hl
  have hge' : MAX_CONCURRENT_OPERATIONS ≤ ({ cfg with calls := cfg.calls ++ [⟨k, PC.entry, false⟩] } : Cfg).operationQueue.length := hge
  show entryRun { cfg with calls := cfg.calls ++ [⟨k, PC.entry, false⟩] } cfg.calls.length = _
  rw [entryRun_miss hn2 hl', ceilingRun_race hn2 hge']
  rw [show ({ cfg with calls := cfg.calls ++ [⟨k, PC.entry, false⟩] } : Cfg).calls = cfg.calls ++ [⟨k, PC.entry, false⟩] from rfl]
  rw [set_append_last]

theorem enqueueKey_start {cfg : Cfg} {k : Nat}
    (hl : lookupA k cfg.operationQueue = none)
    (hlt : ¬ MAX_CONCURRENT_OPERATIONS ≤ cfg.operationQueue.length) :
    enqueueKey cfg k =
      { operationQueue := setA k cfg.ops.length cfg.operationQueue,
        calls := cfg.calls ++ [⟨k, .awaitOwn cfg.ops.length, true⟩],
        ops := cfg.ops ++ [⟨k, cfg.calls.length, true⟩] } := by
  have hn2 : nth ({ cfg with calls := cfg.calls ++ [⟨k, PC.entry, false⟩] } : Cfg).calls cfg.calls.length = some ⟨k, PC.entry, false⟩ := nth_append_self _ _
  have hl' : lookupA (Call.key ⟨k, PC.entry, false⟩) ({ cfg with calls := cfg.calls ++ [⟨k, PC.entry, false⟩] } : Cfg).operationQueue = none := hl
  have hlt' : ¬ MAX_CONCURRENT_OPERATIONS ≤ ({ cfg with calls := cfg.calls ++ [⟨k, PC.entry, false⟩] } : Cfg).operationQueue.length := hlt
  show entryRun { cfg with calls := cfg.calls ++ [⟨k, PC.entry, false⟩] } cfg.calls.length = _
  rw [entryRun_miss hn2 hl', ceilingRun_start hn2 hlt']
  simp only [startOp]
  rw [set_append_last]

theorem wfg_enqueueKey {keys : List Nat} {cfg : Cfg} (k : Nat) (h : WFg keys none cfg) :
    WFg (keys ++ [k]) none (enqueueKey cfg k) := by
  cases hl : lookupA k cfg.operationQueue with
  | some p =>
    rw [enqueueKey_hit hl]
    refine wfg_append_call h rfl ?_
    show false = false ∧ aliveOrEx cfg.ops none p
    refine ⟨rfl, Or.inl ?_⟩
    rcases h.inv1.map_valid k p (lookupA_mem hl) with ⟨o, ho, _, ha⟩
    exact ⟨o, ho, ha⟩
  | none =>
    by_cases hge : MAX_CONCURRENT_OPERATIONS ≤ cfg.operationQueue.length
    · rw [enqueueKey_race hl hge]
      refine wfg_append_call h rfl ?_
      show false = false ∧ cfg.operationQueue.map Prod.snd ≠ [] ∧
        ∀ p ∈ cfg.operationQueue.map Prod.snd, aliveOrEx cfg.ops none p
      refine ⟨rfl, ?_, ?_⟩
      · intro hnil
        have hq0 : cfg.operationQueue = [] := by
          cases hq : cfg.operationQueue with
          | nil => rfl
          | cons kv t => rw [hq] at hnil; simp at hnil
        rw [hq0] at hge
        simp [MAX_CONCURRENT_OPERATIONS] at hge
      · intro p hp
        rcases List.mem_map.1 hp with ⟨⟨k', p'⟩, hq, hp'⟩
        cases hp'
        rcases h.inv1.map_valid k' p' hq with ⟨o', ho', _, ha'⟩
        exact Or.inl ⟨o', ho', ha'⟩
    · rw [enqueueKey_start hl hge]
      have hknot : k ∉ cfg.operationQueue.map Prod.fst :=
        not_mem_map_fst_of_lookupA_none hl
      have hset : setA k cfg.ops.length cfg.operationQueue
          = cfg.operationQueue ++ [(k, cfg.ops.length)] := setA_eq_append _ hknot
      rw [hset]
      constructor
      · simp [h.calls_len]
      ·
        intro j cj hj
        exact nth_keys_append h.calls_len h.key_eq rfl j cj hj
      ·
        show (cfg.operationQueue ++ [(k, cfg.ops.length)]).length ≤ MAX_CONCURRENT_OPERATIONS
        simp [MAX_CONCURRENT_OPERATIONS] at hge ⊢
        omega
      ·
        constructor
        · intro k' p' hm
          rcases List.mem_append.1 hm with hm | hm
          · rcases h.inv1.map_valid k' p' hm with ⟨o, ho, hk, ha⟩
            refine ⟨o, ?_, hk, ha⟩
            show nth (cfg.ops ++ [⟨k, cfg.calls.length, true⟩]) p' = some o
            rw [nth_append_left _ (nth_lt_length ho)]
            exact ho
          · simp only [List.mem_singleton] at hm
            have h1 : k' = k := congrArg Prod.fst hm
            have h2 : p' = cfg.ops.length := congrArg Prod.snd hm
            refine ⟨⟨k, cfg.calls.length, true⟩, ?_, ?_, rfl⟩
            · show nth (cfg.ops ++ [⟨k, cfg.calls.length, true⟩]) p' = some _
              rw [h2]
              exact nth_append_self _ _
            · show k = k'
              rw [h1]
        · show ((cfg.operationQueue ++ [(k, cfg.ops.length)]).map Prod.fst).Nodup
          rw [List.map_append]
          refine List.Nodup.append h.inv1.map_keys_nodup (List.nodup_singleton _) ?_
          intro a ha hb
          have hb' : a = k := by simpa using hb
          subst hb'
          exact hknot ha
      ·
        intro p o hp ho
        have hp' : nth (cfg.ops ++ [⟨k, cfg.calls.length, true⟩]) p = some o := hp
        by_cases hplt : p < cfg.ops.length
        · rw [nth_append_left _ hplt] at hp'
          rcases h.alive_owner p o hp' ho with ⟨c₂, hc₂, hk₂, hs₂, hpc₂⟩
          refine ⟨c₂, ?_, hk₂, hs₂, hpc₂⟩
          show nth (cfg.calls ++ [⟨k, .awaitOwn cfg.ops.length, true⟩]) o.owner = some c₂
          rw [nth_append_left _ (nth_lt_length hc₂)]
          exact hc₂
        · by_cases hpe : p = cfg.ops.length
          · subst hpe
            rw [nth_append_self] at hp'
            cases hp'
            refine ⟨⟨k, .awaitOwn cfg.ops.length, true⟩, ?_, rfl, rfl, rfl⟩
            show nth (cfg.calls ++ [⟨k, .awaitOwn cfg.ops.length, true⟩])
              cfg.calls.length = some _
            exact nth_append_self _ _
          · have hge2 : cfg.ops.length ≤ p := by omega
            rw [nth_append_ge _ hge2] at hp'
            cases hm : p - cfg.ops.length with
            | zero => omega
            | succ m => rw [hm] at hp'; simp [nth] at hp'
      ·
        intro p o hp ho
        have hp' : nth (cfg.ops ++ [⟨k, cfg.calls.length, true⟩]) p = some o := hp
        by_cases hplt : p < cfg.ops.length
        · rw [nth_append_left _ hplt] at hp'
          have hold := h.alive_in_map p o hp' ho
          show lookupA o.key (cfg.operationQueue ++ [(k, cfg.ops.length)]) = some p
          exact lookupA_append_some hold _
        · by_cases hpe : p = cfg.ops.length
          · subst hpe
            rw [nth_append_self] at hp'
            cases hp'
            show lookupA k (cfg.operationQueue ++ [(k, cfg.ops.length)])
              = some cfg.ops.length
            rw [lookupA_append_none hl]
            rw [lookupA, if_pos rfl]
          · have hge2 : cfg.ops.length ≤ p := by omega
            rw [nth_append_ge _ hge2] at hp'
            cases hm : p - cfg.ops.length with
            | zero => omega
            | succ m => rw [hm] at hp'; simp [nth] at hp'
      ·
        have hc := h.count_eq
        simp only [aliveCount] at hc
        show List.countP (·.alive) (cfg.ops ++ [(⟨k, cfg.calls.length, true⟩ : Op)])
          = (cfg.operationQueue ++ [(k, cfg.ops.length)]).length
        rw [List.countP_append, List.length_append]
        have h1 : List.countP (fun o => o.alive) [(⟨k, cfg.calls.length, true⟩ : Op)] = 1 := by
          simp [List.countP_cons]
        rw [h1]
        simp [hc]
      ·
        intro j cj hj
        have hj' : nth (cfg.calls ++ [⟨k, .awaitOwn cfg.ops.length, true⟩]) j = some cj := hj
        by_cases hlt2 : j < cfg.calls.length
        · rw [nth_append_left _ hlt2] at hj'
          have hw := h.pc_wait j cj hj'
          refine waitok_ops_mono ?_ hw
          intro p hp
          exact aliveAtOps_append _ hp
        · by_cases hje : j = cfg.calls.length
          · subst hje
            rw [nth_append_self] at hj'
            cases hj'
            show aliveOrEx (cfg.ops ++ [⟨k, cfg.calls.length, true⟩]) none cfg.ops.length
            exact Or.inl ⟨⟨k, cfg.calls.length, true⟩, nth_append_self _ _, rfl⟩
          · have hge2 : cfg.calls.length ≤ j := by omega
            rw [nth_append_ge _ hge2] at hj'
            cases hm : j - cfg.calls.length with
            | zero => omega
            | succ m => rw [hm] at hj'; simp [nth] at hj'

theorem wfg_empty : WFg [] none ⟨[], [], []⟩ := by
  constructor
  case calls_len => rfl
  case key_eq => intro i c hc; exact Option.noConfusion hc
  case map_le => decide
  case inv1 =>
    constructor
    · intro k p hm; simp at hm
    · exact List.nodup_nil
  case alive_owner => intro p o hp _; exact Option.noConfusion hp
  case alive_in_map => intro p o hp _; exact Option.noConfusion hp
  case count_eq => rfl
  case pc_wait => intro i c hc; exact Option.noConfusion hc

theorem wfg_init_aux : ∀ (rest pre : List Nat) (cfg : Cfg), WFg pre none cfg →
    WFg (pre ++ rest) none (rest.foldl enqueueKey cfg) := by
  intro rest
  induction rest with
  | nil => intro pre cfg h; rw [List.append_nil]; exact h
  | cons k t ih =>
    intro pre cfg h
    have h2 := ih (pre ++ [k]) (enqueueKey cfg k) (wfg_enqueueKey k h)
    rw [List.append_assoc] at h2
    exact h2

theorem wfg_initCfg (keys : List Nat) : WFg keys none (initCfg keys) :=
  wfg_init_aux keys [] ⟨[], [], []⟩ wfg_empty

theorem settle_calls_length (cfg : Cfg) (pid : Nat) (r : QRes) :
    (settle cfg pid r).calls.length = cfg.calls.length := by
  cases hn : nth cfg.ops pid with
  | none => rw [settle_oob r hn]
  | some op =>
    by_cases ha : op.alive = true
    · rw [settle_alive r hn ha, cascade_calls_length]
    · rw [settle_dead r hn ha]

theorem stepQ_calls_length (cfg : Cfg) (ch : Nat × QRes) :
    (stepQ cfg ch).calls.length = cfg.calls.length := by
  by_cases h0 : (runningPids cfg).length = 0
  · rw [stepQ_empty ch h0]
  · rw [stepQ_go ch h0, settle_calls_length]

theorem settle_progress {keys : List Nat} {cfg : Cfg} {pid : Nat} {op : Op}
    (h : WFg keys none cfg) (hn : nth cfg.ops pid = some op) (ha : op.alive = true)
    (r : QRes) : doneCount cfg < doneCount (settle cfg pid r) := by
  rcases h.alive_owner pid op hn ha with ⟨c₂, hc₂, _, _, hpc₂⟩
  rw [settle_alive r hn ha]
  refine countP_lt_nth (fun c : Call => isDone c.pc) ?_ ?_ ?_
  · rw [cascade_calls_length]
  · intro j' a b hja hjb hdone
    have hdone' : isDone a.pc = true := hdone
    show isDone b.pc = true
    cases hpa : a.pc with
    | done r₀ =>
      have hstable := @done_cascade
          { cfg with ops := cfg.ops.set pid { op with alive := false },
                     operationQueue := delA op.key cfg.operationQueue }
          j' a r₀ pid r hja hpa cfg.calls.length
      rw [hstable] at hjb
      cases hjb
      exact hdone'
    | entry => rw [hpa] at hdone'; simp [isDone] at hdone'
    | awaitExisting p => rw [hpa] at hdone'; simp [isDone] at hdone'
    | racing ps => rw [hpa] at hdone'; simp [isDone] at hdone'
    | awaitOwn p => rw [hpa] at hdone'; simp [isDone] at hdone'
  · refine ⟨op.owner, c₂, { c₂ with pc := .done r }, hc₂, ?_, ?_, rfl⟩
    · exact cascade_awaitOwn pid r cfg.calls.length op.owner c₂
        (nth_lt_length hc₂) hc₂ hpc₂
    · show isDone c₂.pc = false
      rw [hpc₂]
      rfl

theorem wfg_step_progress {keys : List Nat} {cfg : Cfg} (h : WFg keys none cfg)
    (ch : Nat × QRes) (h0 : ¬ (runningPids cfg).length = 0) :
    doneCount cfg < doneCount (stepQ cfg ch) := by
  rw [stepQ_go ch h0]
  have hlt : ch.1 % (runningPids cfg).length < (runningPids cfg).length :=
    Nat.mod_lt _ (by omega)
  have hmem := getD_mem_nth 0 hlt
  rcases mem_runningPids.1 hmem with ⟨op, hn, ha⟩
  exact settle_progress h hn ha ch.2

theorem wfg_done_of_norunning {keys : List Nat} {cfg : Cfg} (h : WFg keys none cfg)
    (h0 : (runningPids cfg).length = 0) : doneCount cfg = cfg.calls.length := by
  by_contra hne
  have hle : doneCount cfg ≤ cfg.calls.length :=
    List.countP_le_length (p := fun c : Call => isDone c.pc) (l := cfg.calls)
  have hlt : doneCount cfg < cfg.calls.length := by omega
  rcases exists_false_of_countP_lt (fun c : Call => isDone c.pc) hlt with ⟨c, hcmem, hcf⟩
  have hcf' : isDone c.pc = false := hcf
  rcases mem_nth hcmem with ⟨i, hi⟩
  have hw := h.pc_wait i c hi
  have hnil : runningPids cfg = [] := List.length_eq_zero.1 h0
  cases hpc : c.pc with
  | entry => simp only [WaitOKg, hpc] at hw
  | done r => rw [hpc] at hcf'; simp [isDone] at hcf'
  | awaitExisting p =>
    simp only [WaitOKg, hpc] at hw
    rcases hw.2 with hal | hal
    · have hmem2 : p ∈ runningPids cfg := mem_runningPids.2 hal
      rw [hnil] at hmem2
      simp at hmem2
    · cases hal
  | racing ps =>
    simp only [WaitOKg, hpc] at hw
    rcases hw with ⟨_, hne2, hall⟩
    cases hps : ps with
    | nil => exact hne2 hps
    | cons p t =>
      rcases hall p (by rw [hps]; exact List.mem_cons_self _ _) with hal | hal
      · have hmem2 : p ∈ runningPids cfg := mem_runningPids.2 hal
        rw [hnil] at hmem2
        simp at hmem2
      · cases hal
  | awaitOwn p =>
    simp only [WaitOKg, hpc] at hw
    rcases hw with hal | hal
    · have hmem2 : p ∈ runningPids cfg := mem_runningPids.2 hal
      rw [hnil] at hmem2
      simp at hmem2
    · cases hal

theorem wfg_runQ_allDone {keys : List Nat} (hND : keys.Nodup) :
    ∀ (sched : List (Nat × QRes)) (cfg : Cfg), WFg keys none cfg →
      cfg.calls.length ≤ doneCount cfg + sched.length → allDone (runQ cfg sched) := by
  intro sched
  induction sched with
  | nil =>
    intro cfg h hlen
    have hle : doneCount cfg ≤ cfg.calls.length :=
      List.countP_le_length (p := fun c : Call => isDone c.pc) (l := cfg.calls)
    simp only [List.length_nil] at hlen
    show allDone cfg
    exact allDone_of_countP_eq (by omega)
  | cons ch t ih =>
    intro cfg h hlen
    rw [runQ_cons]
    by_cases h0 : (runningPids cfg).length = 0
    · rw [stepQ_empty ch h0]
      have hdc := wfg_done_of_norunning h h0
      exact ih cfg h (by omega)
    · have hW' := wfg_stepQ hND h ch
      have hprog := wfg_step_progress h ch h0
      have hcl := stepQ_calls_length cfg ch
      refine ih (stepQ cfg ch) hW' ?_
      rw [hcl]
      simp only [List.length_cons] at hlen
      omega

/-- C5: for a burst of `unlink` handlers with pairwise-distinct keys — in
particular more than the ceiling of 10 at once — `queuedOperation` never has
more than `MAX_CONCURRENT_OPERATIONS` operations in flight in any reachable
configuration; a call that arrives with the map at the ceiling suspends on
`Promise.race` over all pending promises (no FIFO order across keys); and
after enough settlements (one schedule entry per enqueued key suffices,
whatever the settlement order and results), every call's returned promise has
settled. -/
theorem c5_ceiling :
    (∀ (keys : List Nat), keys.Nodup → ∀ (sched : List (Nat × QRes)),
        aliveCount (runQ (initCfg keys) sched) ≤ MAX_CONCURRENT_OPERATIONS) ∧
    (∀ (cfg : Cfg) (k : Nat), lookupA k cfg.operationQueue = none →
        MAX_CONCURRENT_OPERATIONS ≤ cfg.operationQueue.length →
        enqueueKey cfg k =
          { cfg with calls :=
              cfg.calls ++ [⟨k, .racing (cfg.operationQueue.map Prod.snd), false⟩] }) ∧
    (∀ (keys : List Nat), keys.Nodup → ∀ (sched : List (Nat × QRes)),
        keys.length ≤ sched.length → allDone (runQ (initCfg keys) sched)) := by
  refine ⟨?_, ?_, ?_⟩
  · intro keys hND sched
    have hW := wfg_runQ hND (wfg_initCfg keys) sched
    rw [hW.count_eq]
    exact hW.map_le
  · intro cfg k hl hge
    exact enqueueKey_race hl hge
  · intro keys hND sched hlen
    refine wfg_runQ_allDone hND sched (initCfg keys) (wfg_initCfg keys) ?_
    rw [(wfg_initCfg keys).calls_len]
    omega

/-- Witness for `c5_ceiling`: twelve distinct keys (two more than the
ceiling), settled by a twelve-entry schedule. -/
theorem c5_ceiling_witness :
    aliveCount (runQ (initCfg [0, 1, 2, 3, 4, 5, 6, 7, 8, 9, 10, 11])
        (List.replicate 12 ((0 : Nat), QRes.ok))) ≤ MAX_CONCURRENT_OPERATIONS ∧
    allDone (runQ (initCfg [0, 1, 2, 3, 4, 5, 6, 7, 8, 9, 10, 11])
        (List.replicate 12 ((0 : Nat), QRes.ok))) :=
  ⟨c5_ceiling.1 [0, 1, 2, 3, 4, 5, 6, 7, 8, 9, 10, 11] (by decide)
      (List.replicate 12 ((0 : Nat), QRes.ok)),
   c5_ceiling.2.2 [0, 1, 2, 3, 4, 5, 6, 7, 8, 9, 10, 11] (by decide)
      (List.replicate 12 ((0 : Nat), QRes.ok)) (by decide)⟩

end Bldr
